import Mathlib

/-!
Verification development for the anksidian Markdown-to-Anki reconciler.

The definitions below are a shallow embedding of the Rust sources:
`src/handle_md.rs` (grammar, rendering, heading stack, reconciler/splice),
`src/anki.rs` (AnkiConnect request layer and note operations), and the
legacy single-file variant `src/main.rs` where a claim cites it.
External collaborators (the AnkiConnect store, the typst compiler and the
pandoc converter) are modelled as oracle functions supplied as parameters.
Strings are modelled as `List Char`; Rust byte offsets are modelled as
character offsets, which coincide on the inputs considered (slicing only
ever happens at parser-produced boundaries).
-/

namespace Anksidian

/-! ## AnkiConnect request layer (src/anki.rs) -/

/-- The `{result, error}` JSON body of an AnkiConnect response
(struct `Response<T>` in src/anki.rs). -/
structure AnkiResponse (α : Type) where
  result : Option α
  error : Option String

/-- `RequestError` from src/anki.rs (transport variants collapsed: they carry
no information relevant here). -/
inductive RequestError
  | ankiConnectRequest : RequestError
  | ankiConnectError : String → RequestError
  | errorAndResult : String → RequestError
  | errorNorResult : RequestError
  | errStatus : Nat → RequestError
deriving DecidableEq

/-- Classification of a successful-status response body, mirroring the
`match (response.result, response.error)` in `Request::request`
(src/anki.rs lines 80-85). -/
def classifyResponse {α : Type} (r : AnkiResponse α) : Except RequestError α :=
  match r.result, r.error with
  | some v, none => .ok v
  | none, some e => .error (.ankiConnectError e)
  | some _, some e => .error (.errorAndResult e)
  | none, none => .error .errorNorResult

/-- `update_cloze_note` from src/anki.rs: store each picture (propagating any
request error), then issue the UpdateNote request, treating
`ErrorNorResult` as success (lines 348-352). The oracle inputs are the
response bodies the store returns for each request. -/
def update_cloze_note (picResponses : List (AnkiResponse String))
    (updateResponse : AnkiResponse Unit) : Except RequestError Unit :=
  match picResponses with
  | [] =>
      match classifyResponse updateResponse with
      | .error .errorNorResult => .ok ()
      | other => other
  | p :: rest =>
      match classifyResponse p with
      | .error e => .error e
      | .ok _ => update_cloze_note rest updateResponse

/-- The DeleteNotes call in `handle_unseen_notes` (src/anki.rs lines 236-245):
`ErrorNorResult` is treated as success, any other error is surfaced,
a result is ignored. -/
def delete_notes_result (resp : AnkiResponse Unit) : Except RequestError Unit :=
  match classifyResponse resp with
  | .error .errorNorResult => .ok ()
  | .error e => .error e
  | .ok _ => .ok ()

/-- `add_cloze_note`'s AddNote request (src/anki.rs line 309): the response is
classified by the shared request layer with no special-casing. -/
def add_cloze_note_result (resp : AnkiResponse Nat) : Except RequestError Nat :=
  classifyResponse resp

/-- `ensure_deck_exists` (src/anki.rs lines 356-371): classify, drop value. -/
def ensure_deck_exists_result (resp : AnkiResponse Nat) : Except RequestError Unit :=
  (classifyResponse resp).map (fun _ => ())

/-- The StoreMediaFile request issued inside `update_cloze_note`
(src/anki.rs lines 330-336): classified by the shared layer, propagated. -/
def store_media_result (resp : AnkiResponse String) : Except RequestError String :=
  classifyResponse resp

/-! ## Reconciler matching (src/handle_md.rs lines 189-200) -/

/-- One entry of the `NOTES` snapshot: id and the "Text" field of an
`UpdateNote` (src/anki.rs); pairing with the `seen` flag is kept in the
snapshot list. -/
structure KnownNote where
  id : Nat
  text : List Char
deriving DecidableEq

/-- The `iter_mut().find(...)` over `NOTES` in `handle_md`
(src/handle_md.rs lines 190-200): linear scan, first note for which the
pending note's embedded id equals the note's id OR the note's "Text" field
equals the rendered contents; that note's `seen` flag is set and its id
returned. -/
def findMatch (noteId : Option Nat) (contents : List Char) :
    List (KnownNote × Bool) → Option Nat × List (KnownNote × Bool)
  | [] => (none, [])
  | (n, seen) :: rest =>
    if noteId = some n.id ∨ n.text = contents then
      (some n.id, (n, true) :: rest)
    else
      let r := findMatch noteId contents rest
      (r.1, (n, seen) :: r.2)

/-! ## Heading stack (src/handle_md.rs lines 269-296, `handle_heading`) -/

/-- `handle_heading`'s stack update, mirroring the `match level.cmp(&headings.len())`:
`Less`: pop, truncate to `level`, write at `level-1`;
`Equal`: write at `level-1`;
`Greater`: push `level - len` empty entries, then push the contents. -/
def handle_heading (level : Nat) (contents : List Char)
    (headings : List (List Char)) : List (List Char) :=
  if level < headings.length then
    ((headings.dropLast).take level).set (level - 1) contents
  else if level = headings.length then
    headings.set (level - 1) contents
  else
    (headings ++ List.replicate (level - headings.length) []) ++ [contents]

/-- Breadcrumb rendering used in `handle_cloze_lines` (src/handle_md.rs
lines 394-398): every non-empty stack entry is appended as `" > "` + entry. -/
def breadcrumb (headings : List (List Char)) : List Char :=
  headings.foldl (fun acc h => if h = [] then acc else acc ++ ' ' :: '>' :: ' ' :: h) []

/-! ## Math conversion post-processing (src/handle_md.rs lines 499-521) -/

/-- The closing-brace character `}` (written numerically throughout). -/
def rbraceChar : Char := Char.ofNat 125

/-- Rust's `str::replace`: leftmost, non-overlapping occurrences of `pat`
replaced by `rep`, realised with explicit fuel (consumes at least one input
character per step, so `s.length` fuel is exact). -/
def rustReplaceAux (pat rep : List Char) : Nat → List Char → List Char
  | 0, s => s
  | _ + 1, [] => []
  | fuel + 1, c :: rest =>
    if pat ≠ [] ∧ pat.isPrefixOf (c :: rest) then
      rep ++ rustReplaceAux pat rep fuel ((c :: rest).drop pat.length)
    else
      c :: rustReplaceAux pat rep fuel rest

/-- Rust's `s.replace(pat, rep)`. -/
def rustReplace (s pat rep : List Char) : List Char :=
  rustReplaceAux pat rep s.length s

/-- Inline/display math with its raw inner text (`Math` in the grammar of
src/handle_md.rs). -/
inductive MathE
  | minline : List Char → MathE
  | mdisplay : List Char → MathE
deriving DecidableEq

/-- Typst-style wrapping from `convert_math`: `$inner$` inline,
`$ inner $` display. -/
def typstStyle : MathE → List Char
  | .minline i => '$' :: (i ++ ['$'])
  | .mdisplay i => '$' :: ' ' :: (i ++ [' ', '$'])

/-- LaTeX-style wrapping from `convert_math`: `\(inner\)` inline,
`\[inner\]` display. -/
def latexStyle : MathE → List Char
  | .minline i => '\\' :: '(' :: (i ++ ['\\', ')'])
  | .mdisplay i => '\\' :: '[' :: (i ++ ['\\', ']'])

/-- Oracles for the external processes used by `convert_math`:
`isTypst` (the typst compile probe; `none` models a spawn/IO failure) and
`typstToLatex` (pandoc; `none` models failure). -/
structure MathOracles where
  isTypst : List Char → Option Bool
  typstToLatex : List Char → Option String

/-- `convert_math` from src/handle_md.rs (lines 499-521): choose the
typst-conversion or the LaTeX wrapping, then apply
`.replace("}", "} ")` to the result. -/
def convert_math (o : MathOracles) (m : MathE) : Option (List Char) :=
  match o.isTypst (typstStyle m) with
  | none => none
  | some true =>
      match o.typstToLatex (typstStyle m) with
      | none => none
      | some r => some (rustReplace r.toList [rbraceChar] [rbraceChar, ' '])
  | some false => some (rustReplace (latexStyle m) [rbraceChar] [rbraceChar, ' '])

/-- The conversion result before post-processing (the value of the
`if is_typst ... else ...` expression in `convert_math`). -/
def chosenConversion (o : MathOracles) (m : MathE) : Option (List Char) :=
  match o.isTypst (typstStyle m) with
  | none => none
  | some true => (o.typstToLatex (typstStyle m)).map String.toList
  | some false => some (latexStyle m)

/-- Modelled from the spec: the post-processing the spec describes for
`convert_math` — replace every occurrence of the two-character sequence
`}}` by `} }` and alter nothing else. Used only to compare the code's
behaviour against the spec's words. -/
def specBracePost (s : List Char) : List Char :=
  rustReplace s [rbraceChar, rbraceChar] [rbraceChar, ' ', rbraceChar]

/-- `true` iff the list contains two adjacent closing braces. -/
def hasTwoBraces : List Char → Bool
  | c1 :: c2 :: rest =>
      (decide (c1 = rbraceChar) && decide (c2 = rbraceChar)) || hasTwoBraces (c2 :: rest)
  | _ => false

/-! ## The tparse grammar (src/handle_md.rs lines 22-103)

The `tparse` combinators are an external crate; their semantics (ordered
choice, greedy non-backtracking repetition, negative lookahead `IsNot`,
totality fallback `char`, `RemainingLength` capturing the unconsumed byte
count) are modelled from the grammar's use in the source and the spec's
section 4.1. Parsers consume from the front of a `List Char`; repetition is
realised with fuel `length + 1`, which is exact because every repeated
parser consumes at least one character on success. -/

def ParserM (α : Type) : Type := List Char → Option (α × List Char)

/-- `TStr<lit>`: match the literal, consume it. -/
def pTStr (lit : List Char) : ParserM Unit := fun s =>
  if lit.isPrefixOf s then some ((), s.drop lit.length) else none

/-- `char`: any single character. -/
def pAnyChar : ParserM Char := fun s =>
  match s with
  | [] => none
  | c :: r => some (c, r)

/-- `RangedChar<lo, hi>`. -/
def pRanged (lo hi : Char) : ParserM Char := fun s =>
  match s with
  | [] => none
  | c :: r => if lo ≤ c ∧ c ≤ hi then some (c, r) else none

/-- `IsNot<T>`: negative lookahead, consumes nothing. -/
def pIsNot {α : Type} (p : ParserM α) : ParserM Unit := fun s =>
  match p s with
  | some _ => none
  | none => some ((), s)

/-- `Option<T>`: try, never fails, consumes nothing on inner failure. -/
def pOpt {α : Type} (p : ParserM α) : ParserM (Option α) := fun s =>
  match p s with
  | some (a, r) => some (some a, r)
  | none => some (none, s)

def pmap {α β : Type} (f : α → β) (p : ParserM α) : ParserM β := fun s =>
  match p s with
  | some (a, r) => some (f a, r)
  | none => none

/-- Tuple sequencing. -/
def pseq {α β : Type} (p : ParserM α) (q : ParserM β) : ParserM (α × β) := fun s =>
  match p s with
  | none => none
  | some (a, r) =>
    match q r with
    | none => none
    | some (b, r2) => some ((a, b), r2)

/-- `Or<(..)>`: ordered choice, first success wins. -/
def por {α : Type} (p q : ParserM α) : ParserM α := fun s =>
  match p s with
  | some res => some res
  | none => q s

/-- Greedy repetition with explicit fuel. -/
def manyA {α : Type} (p : ParserM α) : Nat → List Char → List α × List Char
  | 0, s => ([], s)
  | fuel + 1, s =>
    match p s with
    | none => ([], s)
    | some (a, r) =>
      let res := manyA p fuel r
      (a :: res.1, res.2)

/-- `Vec<T>`: zero-or-more, greedy. -/
def pMany {α : Type} (p : ParserM α) : ParserM (List α) := fun s =>
  some (manyA p (s.length + 1) s)

/-- `VecN<N, T>`: greedy, at least `n` repetitions. -/
def pManyN {α : Type} (n : Nat) (p : ParserM α) : ParserM (List α) := fun s =>
  if n ≤ (manyA p (s.length + 1) s).1.length then some (manyA p (s.length + 1) s)
  else none

/-- `RemainingLength`: capture the unconsumed length, consume nothing. -/
def pRemLength : ParserM Nat := fun s => some (s.length, s)

/-- The `(IsNot<T>, U)` pair pattern, keeping only `U`'s result. -/
def pGuarded {α β : Type} (notp : ParserM α) (p : ParserM β) : ParserM β :=
  pmap Prod.snd (pseq (pIsNot notp) p)

/-- `Newline := Or<(TStr<"\r">, TStr<"\n">, TStr<"\r\n">)>` (in this order). -/
def newlineP : ParserM Unit :=
  por (pTStr ['\r']) (por (pTStr ['\n']) (pTStr ['\r', '\n']))

/-- `Code` variants, carrying the inner characters. -/
inductive CodeE
  | cinline : List Char → CodeE
  | cmulti : List Char → CodeE
deriving DecidableEq

def inlineCodeP : ParserM CodeE :=
  pmap (fun t => CodeE.cinline t.1.2)
    (pseq (pseq (pTStr ['`']) (pManyN 1 (pGuarded (pTStr ['`']) pAnyChar)))
      (pTStr ['`']))

def multiCodeP : ParserM CodeE :=
  pmap (fun t => CodeE.cmulti t.1.2)
    (pseq (pseq (pTStr ['`', '`', '`']) (pManyN 1 (pGuarded (pTStr ['`', '`', '`']) pAnyChar)))
      (pTStr ['`', '`', '`']))

/-- `Code := Or<(InlineCode, MultilineCode)>`. -/
def codeP : ParserM CodeE := por inlineCodeP multiCodeP

def inlineMathP : ParserM MathE :=
  pmap (fun t => MathE.minline t.1.2)
    (pseq (pseq (pTStr ['$']) (pManyN 1 (pGuarded (pTStr ['$']) pAnyChar)))
      (pTStr ['$']))

def displayMathP : ParserM MathE :=
  pmap (fun t => MathE.mdisplay t.1.2)
    (pseq (pseq (pTStr ['$', '$']) (pManyN 1 (pGuarded (pTStr ['$', '$']) pAnyChar)))
      (pTStr ['$', '$']))

/-- `Math := Or<(InlineMath, DisplayMath)>`. -/
def mathElemP : ParserM MathE := por inlineMathP displayMathP

/-- `Link` with display marker, target and optional rename. -/
structure LinkE where
  bang : Bool
  target : List Char
  rename : Option (List Char)
deriving DecidableEq

def linkStopP : ParserM Unit :=
  por (pTStr [']', ']']) (por newlineP (pTStr ['|']))

def linkRenameP : ParserM (List Char) :=
  pmap Prod.snd
    (pseq (pTStr ['|'])
      (pManyN 1 (pGuarded (por (pTStr [']', ']']) newlineP) pAnyChar)))

def linkP : ParserM LinkE :=
  pmap (fun t => LinkE.mk t.1.1.1.1.isSome t.1.1.2 t.1.2)
    (pseq (pseq (pseq (pseq (pOpt (pTStr ['!'])) (pTStr ['[', '[']))
      (pManyN 1 (pGuarded linkStopP pAnyChar)))
      (pOpt linkRenameP)) (pTStr [']', ']']))

/-- `Element := Or<(Code, Math, Link, char)>`. -/
inductive ElementE
  | code : CodeE → ElementE
  | math : MathE → ElementE
  | link : LinkE → ElementE
  | ch : Char → ElementE
deriving DecidableEq

def elementP : ParserM ElementE :=
  por (pmap ElementE.code codeP)
    (por (pmap ElementE.math mathElemP)
      (por (pmap ElementE.link linkP) (pmap ElementE.ch pAnyChar)))

/-- `Heading`: level (number of `#`) and inner elements. -/
structure HeadingE where
  level : Nat
  elems : List ElementE
deriving DecidableEq

def headingP : ParserM HeadingE :=
  pmap (fun t => HeadingE.mk t.1.1.1.length t.1.2)
    (pseq (pseq (pseq (pManyN 1 (pTStr ['#'])) (pTStr [' ']))
      (pMany (pGuarded newlineP elementP))) newlineP)

def tagStopP : ParserM Unit :=
  por (pTStr ['#']) (por (pTStr [' ']) newlineP)

/-- `Tag`: the full tag text including the leading `#`, as assembled by the
tag matcher in `handle_md` (src/handle_md.rs lines 169-178). -/
def tagP : ParserM (List Char) :=
  pmap (fun t => '#' :: t.2)
    (pseq (pTStr ['#']) (pManyN 1 (pGuarded tagStopP pAnyChar)))

/-- `Cloze`: inner elements between the `==` delimiters. -/
def clozeP : ParserM (List ElementE) :=
  pmap (fun t => t.1.2)
    (pseq (pseq (pTStr ['=', '=']) (pManyN 1 (pGuarded (pTStr ['=', '=']) elementP)))
      (pTStr ['=', '=']))

def noteIdStart : List Char := ['<', '!', '-', '-', 'N', 'o', 't', 'e', 'I', 'D', ':']

def noteIdEnd : List Char := ['-', '-', '>']

/-- `NoteIdComment`: newline, marker, at least ten digits, end marker,
optional newline; the digit characters are kept. -/
def noteIdP : ParserM (List Char) :=
  pmap (fun t => t.1.1.2)
    (pseq (pseq (pseq (pseq newlineP (pTStr noteIdStart))
      (pManyN 10 (pRanged '0' '9'))) (pTStr noteIdEnd)) (pOpt newlineP))

/-- `ClozeLines` production result. -/
structure ClozeLinesE where
  pre : List ElementE
  firstCloze : List ElementE
  rest : List (Sum (List ElementE) ElementE)
  noteDigits : Option (List Char)
  rem : Nat
deriving DecidableEq

def clozeStartStopP : ParserM Unit :=
  por (pmap (fun _ => ()) clozeP) newlineP

def clozeLinesP : ParserM ClozeLinesE :=
  pmap (fun t => ClozeLinesE.mk t.1.1.1.1 t.1.1.1.2 t.1.1.2 t.1.2 t.2)
    (pseq (pseq (pseq (pseq (pMany (pGuarded clozeStartStopP elementP)) clozeP)
      (pMany (por (pmap Sum.inl clozeP) (pmap Sum.inr (pGuarded newlineP elementP)))))
      (pOpt noteIdP)) pRemLength)

/-- `FileElement := Or<(ClozeLines, Heading, Tag, Code, Math, Link, char)>`. -/
inductive FileElemE
  | clozeLines : ClozeLinesE → FileElemE
  | heading : HeadingE → FileElemE
  | tag : List Char → FileElemE
  | code : CodeE → FileElemE
  | math : MathE → FileElemE
  | link : LinkE → FileElemE
  | ch : Char → FileElemE
deriving DecidableEq

def fileElemP : ParserM FileElemE :=
  por (pmap FileElemE.clozeLines clozeLinesP)
    (por (pmap FileElemE.heading headingP)
      (por (pmap FileElemE.tag tagP)
        (por (pmap FileElemE.code codeP)
          (por (pmap FileElemE.math mathElemP)
            (por (pmap FileElemE.link linkP) (pmap FileElemE.ch pAnyChar))))))

/-- `File := AllConsumed<Vec<FileElement>>` followed by the `tparse` call in
`handle_md` (src/handle_md.rs line 133). -/
def parseFile (s : List Char) : Option (List FileElemE) :=
  match pMany fileElemP s with
  | some (es, []) => some es
  | _ => none

/-! ## Rendering and the per-file fold (src/handle_md.rs lines 144-184,
269-442) -/

/-- An image registered by `maybe_handle_image`. -/
structure Picture where
  path : List Char
  filename : List Char
deriving DecidableEq

/-- `code_to_string`: delimiters and raw contents, verbatim. -/
def code_to_string : CodeE → List Char
  | .cinline cs => '`' :: (cs ++ ['`'])
  | .cmulti cs => '`' :: '`' :: '`' :: (cs ++ ['`', '`', '`'])

/-- `link_to_string` with `maybe_handle_image` modelled as an oracle `img`
(it inspects the filesystem and spawns `djxl`): rename text if present,
target text otherwise; a displayed link whose target the oracle recognises
as an image renders as the empty string and registers the picture. -/
def link_to_string (img : List Char → Option Picture) (l : LinkE)
    (pics : List Picture) : List Char × List Picture :=
  let contents := match l.rename with
    | some r => r
    | none => l.target
  if l.bang then
    match img contents with
    | some pic => ([], pics ++ [pic])
    | none => (contents, pics)
  else (contents, pics)

/-- `element_to_string` (src/handle_md.rs lines 319-331). -/
def element_to_string (o : MathOracles) (img : List Char → Option Picture)
    (e : ElementE) (pics : List Picture) : Option (List Char × List Picture) :=
  match e with
  | .code c => some (code_to_string c, pics)
  | .math m =>
      match convert_math o m with
      | none => none
      | some s => some (s, pics)
  | .link l => some (link_to_string img l pics)
  | .ch c => some ([c], pics)

/-- Render a list of elements left to right, appending to `acc` and
threading the picture accumulator. -/
def renderElems (o : MathOracles) (img : List Char → Option Picture) :
    List ElementE → List Char → List Picture → Option (List Char × List Picture)
  | [], acc, pics => some (acc, pics)
  | e :: rest, acc, pics =>
    match element_to_string o img e pics with
    | none => none
    | some (s, pics') => renderElems o img rest (acc ++ s) pics'

/-- The size of `u64`: the id fold of `handle_cloze_lines` is performed in
`u64` arithmetic. -/
def u64size : Nat := 18446744073709551616

/-- The left-to-right digit fold of `handle_cloze_lines`
(src/handle_md.rs lines 378-388): `acc * 10 + digit` in `u64`, each step
reduced modulo `2^64` (Rust release semantics; a debug build aborts at the
first overflowing step instead). -/
def foldDigits (ds : List Char) : Nat :=
  ds.foldl (fun acc c => (acc * 10 + (c.toNat - 48)) % u64size) 0

/-- The unbounded decimal value of a digit run (specification side, used to
state the no-overflow condition under which the `u64` fold is exact; the
digit runs of genuine identifier comments denote `u64` note ids and satisfy
it). -/
def digitsVal (ds : List Char) : Nat :=
  ds.foldl (fun acc c => acc * 10 + (c.toNat - 48)) 0

/-- Decimal rendering of a `Nat` (Rust's `u64::to_string` /
`Display for u64`), most significant digit first, no leading zeros,
`"0"` for zero. -/
def decCharsAux : Nat → Nat → List Char
  | 0, _ => []
  | _ + 1, 0 => []
  | fuel + 1, n + 1 =>
      decCharsAux fuel ((n + 1) / 10) ++ [Nat.digitChar ((n + 1) % 10)]

def decChars (n : Nat) : List Char :=
  if n = 0 then ['0'] else decCharsAux n n

/-- The opening brace character. -/
def lbraceChar : Char := Char.ofNat 123

/-- `{{c<num>::` as written by `add_cloze` (src/handle_md.rs line 356). -/
def clozeOpen (num : Nat) : List Char :=
  lbraceChar :: lbraceChar :: 'c' :: (decChars num ++ [':', ':'])

/-- `ClozeData` (src/handle_md.rs lines 105-110). -/
structure ClozeData where
  contents : List Char
  note_id : Option Nat
  pictures : List Picture
  remaining_length : Nat
deriving DecidableEq

/-- One `add_cloze` call: bump the counter to `num`, append
`{{c<num>::<rendered inner>}}`. -/
def renderClozeItem (o : MathOracles) (img : List Char → Option Picture)
    (num : Nat) (inner : List ElementE) (acc : List Char) (pics : List Picture) :
    Option (List Char × List Picture) :=
  match renderElems o img inner [] pics with
  | none => none
  | some (s, pics') =>
      some (acc ++ clozeOpen num ++ s ++ [rbraceChar, rbraceChar], pics')

/-- The loop over `cloze_lines.2` (further clozes and interleaved non-newline
elements); returns the accumulated text, the final cloze counter and the
pictures. -/
def handleRest (o : MathOracles) (img : List Char → Option Picture) :
    List (Sum (List ElementE) ElementE) → Nat → List Char → List Picture →
    Option (List Char × Nat × List Picture)
  | [], num, acc, pics => some (acc, num, pics)
  | Sum.inl cloze :: rest, num, acc, pics =>
    match renderClozeItem o img (num + 1) cloze acc pics with
    | none => none
    | some (acc', pics') => handleRest o img rest (num + 1) acc' pics'
  | Sum.inr e :: rest, num, acc, pics =>
    match element_to_string o img e pics with
    | none => none
    | some (s, pics') => handleRest o img rest num (acc ++ s) pics'

/-- `handle_cloze_lines` (src/handle_md.rs lines 333-409): render the
prefix, the first cloze (counter 1), the mixed tail; decode the optional
identifier digits; append `<br>`, the path string and the breadcrumb;
record the remaining length. -/
def handle_cloze_lines (o : MathOracles) (img : List Char → Option Picture)
    (pathStr : List Char) (headings : List (List Char)) (cl : ClozeLinesE) :
    Option ClozeData :=
  match renderElems o img cl.pre [] [] with
  | none => none
  | some (acc0, pics0) =>
    match renderClozeItem o img 1 cl.firstCloze acc0 pics0 with
    | none => none
    | some (acc1, pics1) =>
      match handleRest o img cl.rest 1 acc1 pics1 with
      | none => none
      | some (acc2, _, pics2) =>
          some ⟨acc2 ++ ['<', 'b', 'r', '>'] ++ pathStr ++ breadcrumb headings,
                cl.noteDigits.map foldDigits, pics2, cl.rem⟩

/-- The heading arm of the matcher in `handle_md` (line 166): render the
heading's elements (pictures discarded — the source passes a fresh
`Vec::new()`), then update the stack via `handle_heading`. -/
def handle_heading_elem (o : MathOracles) (img : List Char → Option Picture)
    (h : HeadingE) (headings : List (List Char)) : Option (List (List Char)) :=
  match renderElems o img h.elems [] [] with
  | none => none
  | some (cs, _) => some (handle_heading h.level cs headings)

/-- The fold over the parsed file elements (src/handle_md.rs lines 148-184),
accumulating the heading stack, the pending notes and the tag list. -/
def foldFile (o : MathOracles) (img : List Char → Option Picture)
    (pathStr : List Char) :
    List FileElemE → List (List Char) → List ClozeData → List (List Char) →
    Option (List (List Char) × List ClozeData × List (List Char))
  | [], hs, cls, tags => some (hs, cls, tags)
  | .clozeLines cl :: rest, hs, cls, tags =>
    match handle_cloze_lines o img pathStr hs cl with
    | none => none
    | some cd => foldFile o img pathStr rest hs (cls ++ [cd]) tags
  | .heading h :: rest, hs, cls, tags =>
    match handle_heading_elem o img h hs with
    | none => none
    | some hs' => foldFile o img pathStr rest hs' cls tags
  | .tag t :: rest, hs, cls, tags => foldFile o img pathStr rest hs cls (tags ++ [t])
  | .code _ :: rest, hs, cls, tags => foldFile o img pathStr rest hs cls tags
  | .math _ :: rest, hs, cls, tags => foldFile o img pathStr rest hs cls tags
  | .link _ :: rest, hs, cls, tags => foldFile o img pathStr rest hs cls tags
  | .ch _ :: rest, hs, cls, tags => foldFile o img pathStr rest hs cls tags

/-! ## Reconciliation and splice (src/handle_md.rs lines 186-266) -/

/-- A state-changing call issued to the store: `update_cloze_note` or
`add_cloze_note` (payload: id/contents/tags, and the deck for creates). -/
inductive StoreCall
  | update : Nat → List Char → List (List Char) → StoreCall
  | create : List Char → List (List Char) → List Char → StoreCall
deriving DecidableEq

/-- State threaded through the splice loop: the snapshot (with seen flags),
the output buffer, the `last_read` cursor, the store-call counter and the
trace of issued calls. -/
structure SpliceState where
  notes : List (KnownNote × Bool)
  out : List Char
  lastRead : Nat
  callIdx : Nat
  trace : List StoreCall
deriving DecidableEq

/-- Outcome of one loop iteration / of the loop: `panic` models the
`expect("Previous ID should be present")`, `errAbort` the `?`-propagated
deck-lookup failure. -/
inductive StepResult (α : Type)
  | panic : StepResult α
  | errAbort : StepResult α
  | ok : α → StepResult α
deriving DecidableEq

/-- Rust's `str::rfind`: start index of the last occurrence of `pat`, found
by searching downward from the end. -/
def rfindAux (s pat : List Char) : Nat → Option Nat
  | 0 => if pat.isPrefixOf (s.drop 0) then some 0 else none
  | i + 1 => if pat.isPrefixOf (s.drop (i + 1)) then some (i + 1) else rfindAux s pat i

def rfindIdx (s pat : List Char) : Option Nat := rfindAux s pat s.length

/-- The text spliced in for a created note:
`"\n" + NOTE_ID_COMMENT_START + id + NOTE_ID_COMMENT_END`
(src/handle_md.rs lines 241-248). -/
def insertedComment (id : Nat) : List Char :=
  '\n' :: (noteIdStart ++ decChars id ++ noteIdEnd)

/-- The file-write part of one loop iteration: copy the verbatim chunk up to
`index`, then insert a fresh comment / replace the most recent occurrence of
the previous id's decimal text / change nothing, according to
`(note_id, final_id)` (src/handle_md.rs lines 235-260). -/
def spliceWrite (str : List Char) (st : SpliceState)
    (notes' : List (KnownNote × Bool)) (call : StoreCall) (index : Nat)
    (noteId finalId : Option Nat) : StepResult SpliceState :=
  let chunk := (str.take index).drop st.lastRead
  let out1 := st.out ++ chunk
  let base : SpliceState := ⟨notes', out1, index, st.callIdx + 1, st.trace ++ [call]⟩
  match noteId, finalId with
  | _, none => .ok base
  | none, some idw => .ok { base with out := out1 ++ insertedComment idw }
  | some prev, some newId =>
    match rfindIdx out1 (decChars prev) with
    | none => .panic
    | some p =>
        .ok { base with
              out := (out1.take p) ++ decChars newId
                       ++ (out1.drop (p + (decChars prev).length)) }

/-- One iteration of the reconcile loop (src/handle_md.rs lines 189-260):
match against the snapshot (marking `seen`), call the store (update when
matched; deck lookup then create when not), then write. The store is the
oracle `oracle : Nat → Option Nat`, consulted at the running call index:
`some id` is a successful response (the created note's id for creates),
`none` a failed one. -/
def spliceStep (str : List Char) (oracle : Nat → Option Nat)
    (deck : Option (List Char)) (tags : List (List Char))
    (st : SpliceState) (cloze : ClozeData) : StepResult SpliceState :=
  match (findMatch cloze.note_id cloze.contents st.notes).1 with
  | some matchedId =>
      spliceWrite str st (findMatch cloze.note_id cloze.contents st.notes).2
        (.update matchedId cloze.contents tags) (str.length - cloze.remaining_length)
        cloze.note_id
        (match oracle st.callIdx with
         | some _ => some matchedId
         | none => none)
  | none =>
      match deck with
      | none => .errAbort
      | some d =>
          spliceWrite str st (findMatch cloze.note_id cloze.contents st.notes).2
            (.create cloze.contents tags d) (str.length - cloze.remaining_length)
            cloze.note_id (oracle st.callIdx)

/-- The whole reconcile loop over the pending notes. -/
def runSplice (str : List Char) (oracle : Nat → Option Nat)
    (deck : Option (List Char)) (tags : List (List Char)) :
    SpliceState → List ClozeData → StepResult SpliceState
  | st, [] => .ok st
  | st, c :: rest =>
    match spliceStep str oracle deck tags st c with
    | .panic => .panic
    | .errAbort => .errAbort
    | .ok st' => runSplice str oracle deck tags st' rest

/-- Result of `handle_md` on one file: a panic (unreachable-by-design
`expect`s), an error abort, or the rewritten file text plus the store-call
trace and the final snapshot. -/
inductive PipeResult
  | panic : PipeResult
  | errAbort : PipeResult
  | ok : List Char → List StoreCall → List (KnownNote × Bool) → PipeResult
deriving DecidableEq

/-- `handle_md` (src/handle_md.rs lines 123-267): parse, fold, reconcile,
splice, and append the remaining tail of the input. -/
def handle_md_model (o : MathOracles) (img : List Char → Option Picture)
    (oracle : Nat → Option Nat) (notes0 : List (KnownNote × Bool))
    (deck : Option (List Char)) (pathStr : List Char) (input : List Char) :
    PipeResult :=
  match parseFile input with
  | none => .panic
  | some es =>
    match foldFile o img pathStr es [] [] [] with
    | none => .errAbort
    | some (_, clozes, tags) =>
      match runSplice input oracle deck tags ⟨notes0, [], 0, 0, []⟩ clozes with
      | .panic => .panic
      | .errAbort => .errAbort
      | .ok st => .ok (st.out ++ input.drop st.lastRead) st.trace st.notes

/-- A parser never grows its input: on success the remainder is no longer
than the input. -/
def ConsumesLe {α : Type} (p : ParserM α) : Prop :=
  ∀ s a r, p s = some (a, r) → r.length ≤ s.length

/-- A parser consumes at least one character on success. -/
def ConsumesLt {α : Type} (p : ParserM α) : Prop :=
  ∀ s a r, p s = some (a, r) → r.length < s.length

/-- A parser only consumes from the front: the remainder is a suffix. -/
def ConsumesSuffix {α : Type} (p : ParserM α) : Prop :=
  ∀ s a r, p s = some (a, r) → r <:+ s

/-- The concrete input file of the C2 scenario. -/
def c2Input : List Char := "A\n==B==\n".toList

/-- The concrete input of the C3 re-run scenario: the C2-style file after a
first run that embedded a canonical 13-digit identifier. -/
def c3Input : List Char :=
  'A' :: '\n' :: '=' :: '=' :: 'B' :: '=' :: '=' ::
    (insertedComment 1234567890123 ++ ['\n'])

/-- The rendered contents of the single note of `c3Input`
(`{{c1::B}}<br>p` for path string `p`). -/
def c3Contents : List Char :=
  clozeOpen 1 ++ ['B'] ++ [rbraceChar, rbraceChar] ++ ['<', 'b', 'r', '>', 'p']

/-- The `ClozeLines` elements of a parsed file, in document order. -/
def clozeLinesOf : List FileElemE → List ClozeLinesE
  | [] => []
  | .clozeLines cl :: rest => cl :: clozeLinesOf rest
  | .heading _ :: rest => clozeLinesOf rest
  | .tag _ :: rest => clozeLinesOf rest
  | .code _ :: rest => clozeLinesOf rest
  | .math _ :: rest => clozeLinesOf rest
  | .link _ :: rest => clozeLinesOf rest
  | .ch _ :: rest => clozeLinesOf rest

/-- Well-formedness the parser guarantees for the sequence of `ClozeLines`
productions of `str`, relative to a base offset: splice indices are
monotone and in range, and a parsed identifier's digit run lies inside the
verbatim chunk between the previous index and this block's index. -/
def clWfB (str : List Char) : Nat → List ClozeLinesE → Bool
  | _, [] => true
  | base, cl :: rest =>
      decide (base ≤ str.length - cl.rem) && decide (cl.rem ≤ str.length) &&
      (match cl.noteDigits with
       | none => true
       | some ds =>
           decide (ds ≠ []) && decide (∀ c ∈ ds, '0' ≤ c ∧ c ≤ '9') &&
           decide (ds <:+: ((str.take (str.length - cl.rem)).drop base))) &&
      clWfB str (str.length - cl.rem) rest

/-- The corresponding well-formedness of the pending-note list the fold
produces, which is what the splice loop needs: the decimal rendering of an
embedded prior id occurs in the verbatim chunk copied for that note. -/
def dataWfB (str : List Char) : Nat → List ClozeData → Bool
  | _, [] => true
  | base, cd :: rest =>
      decide (base ≤ str.length - cd.remaining_length) &&
      decide (cd.remaining_length ≤ str.length) &&
      (match cd.note_id with
       | none => true
       | some n =>
           decide (decChars n <:+:
             ((str.take (str.length - cd.remaining_length)).drop base))) &&
      dataWfB str (str.length - cd.remaining_length) rest

/-- The cursor position after splicing a list of notes starting from `base`. -/
def endBase (str : List Char) : Nat → List ClozeData → Nat
  | base, [] => base
  | _, cd :: rest => endBase str (str.length - cd.remaining_length) rest

/-- How one note's verbatim chunk may appear in the output: unchanged (the
store call failed), with a fresh identifier comment appended at the splice
point (created note), or with an embedded prior id's decimal text replaced
in place (updated or re-created note). Every byte outside the replaced id
digits and the appended comment is preserved. -/
def SplicePiece (chunk piece : List Char) : Prop :=
  piece = chunk ∨
  (∃ id, piece = chunk ++ insertedComment id) ∨
  (∃ a prev newId, (decChars prev).isPrefixOf (chunk.drop a) ∧
    piece = chunk.take a ++ decChars newId ++ chunk.drop (a + (decChars prev).length))

/-- The verbatim chunks the splice loop copies, one per pending note:
from the previous cursor position to the note's recorded splice index. -/
def chunksOf (str : List Char) : Nat → List ClozeData → List (List Char)
  | _, [] => []
  | base, cd :: rest =>
      ((str.take (str.length - cd.remaining_length)).drop base)
        :: chunksOf str (str.length - cd.remaining_length) rest

/-- A file whose identifier comment holds 21 digits `1`: accepted by the
parser (`VecN<10, _>` puts no upper bound), but its decimal value exceeds
`u64::MAX`, so the id fold wraps. -/
def c9Input : List Char :=
  '=' :: '=' :: 'B' :: '=' :: '=' ::
    ('\n' :: (noteIdStart ++ (List.replicate 21 '1' ++ noteIdEnd)))

theorem hasTwoBraces_cons_of_ne (c : Char) (s : List Char) (hc : c ≠ rbraceChar) :
    hasTwoBraces (c :: s) = hasTwoBraces s := by
  cases s with
  | nil => simp [hasTwoBraces]
  | cons d r => simp [hasTwoBraces, hc]

theorem hasTwoBraces_brace_space (s : List Char) :
    hasTwoBraces (rbraceChar :: ' ' :: s) = hasTwoBraces (' ' :: s) := by
  simp [hasTwoBraces]
  intro h
  exact absurd h.symm (by decide)

theorem rustReplaceAux_brace_no_two (fuel : Nat) :
    ∀ s : List Char, s.length ≤ fuel →
      hasTwoBraces (rustReplaceAux [rbraceChar] [rbraceChar, ' '] fuel s) = false := by
  induction fuel with
  | zero =>
      intro s hs
      have : s = [] := List.length_eq_zero.mp (Nat.le_zero.mp hs)
      subst this
      rfl
  | succ n ih =>
      intro s hs
      match s with
      | [] => rfl
      | c :: rest =>
        by_cases hc : c = rbraceChar
        · subst hc
          have hpre : ([rbraceChar] : List Char).isPrefixOf (rbraceChar :: rest) := by
            simp [List.isPrefixOf]
          rw [rustReplaceAux]
          rw [if_pos ⟨by simp, hpre⟩]
          simp only [List.drop_succ_cons, List.drop_zero, List.cons_append, List.nil_append]
          rw [hasTwoBraces_brace_space]
          rw [hasTwoBraces_cons_of_ne _ _ (by decide)]
          exact ih rest (by simpa using Nat.le_of_succ_le_succ hs)
        · have hpre : ¬ (([rbraceChar] : List Char).isPrefixOf (c :: rest)) := by
            simp [List.isPrefixOf, List.cons_prefix_cons]
            intro h
            exact absurd h.symm hc
          rw [rustReplaceAux]
          rw [if_neg (by intro h; exact hpre h.2)]
          rw [hasTwoBraces_cons_of_ne _ _ hc]
          exact ih rest (by simpa using Nat.le_of_succ_le_succ hs)

theorem rustReplace_brace_no_two (s : List Char) :
    hasTwoBraces (rustReplace s [rbraceChar] [rbraceChar, ' ']) = false :=
  rustReplaceAux_brace_no_two s.length s le_rfl

/-! ## Consumption lemmas for the grammar -/

theorem pTStr_le (lit : List Char) : ConsumesLe (pTStr lit) := by
  intro s a r h
  unfold pTStr at h
  by_cases hc : lit.isPrefixOf s
  · rw [if_pos hc] at h
    simp at h
    rw [← h]
    simp
  · rw [if_neg hc] at h
    cases h

theorem pTStr_lt (lit : List Char) (hlit : lit ≠ []) : ConsumesLt (pTStr lit) := by
  intro s a r h
  unfold pTStr at h
  by_cases hc : lit.isPrefixOf s
  · rw [if_pos hc] at h
    simp at h
    have hle : lit.length ≤ s.length :=
      (List.isPrefixOf_iff_prefix.mp hc).length_le
    have hpos : 0 < lit.length := List.length_pos.mpr hlit
    rw [← h]
    simp
    omega
  · rw [if_neg hc] at h
    cases h

theorem pAnyChar_lt : ConsumesLt pAnyChar := by
  intro s a r h
  cases s with
  | nil => exact absurd h (by simp [pAnyChar])
  | cons c rest =>
      have hr : rest = r := by
        simp [pAnyChar] at h
        exact h.2
      rw [← hr]
      simp

theorem pRanged_lt (lo hi : Char) : ConsumesLt (pRanged lo hi) := by
  intro s a r h
  cases s with
  | nil => exact absurd h (by simp [pRanged])
  | cons c rest =>
      by_cases hc : lo ≤ c ∧ c ≤ hi
      · have hr : rest = r := by
          simp [pRanged, hc] at h
          exact h.2
        rw [← hr]
        simp
      · exact absurd h (by simp [pRanged, hc])

theorem pIsNot_eq {α : Type} (p : ParserM α) (s : List Char) (a : Unit) (r : List Char)
    (h : pIsNot p s = some (a, r)) : r = s := by
  unfold pIsNot at h
  cases hps : p s with
  | some v => rw [hps] at h; simp at h
  | none => rw [hps] at h; simp at h; exact h.symm

theorem pIsNot_le {α : Type} (p : ParserM α) : ConsumesLe (pIsNot p) := by
  intro s a r h
  rw [pIsNot_eq p s a r h]

theorem pOpt_le {α : Type} (p : ParserM α) (hp : ConsumesLe p) : ConsumesLe (pOpt p) := by
  intro s a r h
  unfold pOpt at h
  cases hps : p s with
  | some ar =>
      obtain ⟨a', r'⟩ := ar
      rw [hps] at h
      simp at h
      rw [← h.2]
      exact hp s a' r' hps
  | none =>
      rw [hps] at h
      simp at h
      rw [← h.2]

theorem pmap_le {α β : Type} (f : α → β) (p : ParserM α) (hp : ConsumesLe p) :
    ConsumesLe (pmap f p) := by
  intro s a r h
  unfold pmap at h
  cases hps : p s with
  | some ar =>
      obtain ⟨a', r'⟩ := ar
      rw [hps] at h
      simp at h
      rw [← h.2]
      exact hp s a' r' hps
  | none => rw [hps] at h; simp at h

theorem pmap_lt {α β : Type} (f : α → β) (p : ParserM α) (hp : ConsumesLt p) :
    ConsumesLt (pmap f p) := by
  intro s a r h
  unfold pmap at h
  cases hps : p s with
  | some ar =>
      obtain ⟨a', r'⟩ := ar
      rw [hps] at h
      simp at h
      rw [← h.2]
      exact hp s a' r' hps
  | none => rw [hps] at h; simp at h

theorem pseq_le {α β : Type} (p : ParserM α) (q : ParserM β)
    (hp : ConsumesLe p) (hq : ConsumesLe q) : ConsumesLe (pseq p q) := by
  intro s a r h
  unfold pseq at h
  cases hps : p s with
  | none => rw [hps] at h; simp at h
  | some ar =>
      obtain ⟨a', r'⟩ := ar
      rw [hps] at h
      simp at h
      cases hqs : q r' with
      | none => rw [hqs] at h; simp at h
      | some br =>
          obtain ⟨b, r2⟩ := br
          rw [hqs] at h
          simp at h
          rw [← h.2]
          exact le_trans (hq r' b r2 hqs) (hp s a' r' hps)

theorem pseq_lt_left {α β : Type} (p : ParserM α) (q : ParserM β)
    (hp : ConsumesLt p) (hq : ConsumesLe q) : ConsumesLt (pseq p q) := by
  intro s a r h
  unfold pseq at h
  cases hps : p s with
  | none => rw [hps] at h; simp at h
  | some ar =>
      obtain ⟨a', r'⟩ := ar
      rw [hps] at h
      simp at h
      cases hqs : q r' with
      | none => rw [hqs] at h; simp at h
      | some br =>
          obtain ⟨b, r2⟩ := br
          rw [hqs] at h
          simp at h
          rw [← h.2]
          exact lt_of_le_of_lt (hq r' b r2 hqs) (hp s a' r' hps)

theorem pseq_lt_right {α β : Type} (p : ParserM α) (q : ParserM β)
    (hp : ConsumesLe p) (hq : ConsumesLt q) : ConsumesLt (pseq p q) := by
  intro s a r h
  unfold pseq at h
  cases hps : p s with
  | none => rw [hps] at h; simp at h
  | some ar =>
      obtain ⟨a', r'⟩ := ar
      rw [hps] at h
      simp at h
      cases hqs : q r' with
      | none => rw [hqs] at h; simp at h
      | some br =>
          obtain ⟨b, r2⟩ := br
          rw [hqs] at h
          simp at h
          rw [← h.2]
          exact lt_of_lt_of_le (hq r' b r2 hqs) (hp s a' r' hps)

theorem por_le {α : Type} (p q : ParserM α)
    (hp : ConsumesLe p) (hq : ConsumesLe q) : ConsumesLe (por p q) := by
  intro s a r h
  unfold por at h
  cases hps : p s with
  | some v =>
      obtain ⟨va, vr⟩ := v
      rw [hps] at h
      simp at h
      rw [← h.2]
      exact hp s va vr hps
  | none => rw [hps] at h; exact hq s a r h

theorem por_lt {α : Type} (p q : ParserM α)
    (hp : ConsumesLt p) (hq : ConsumesLt q) : ConsumesLt (por p q) := by
  intro s a r h
  unfold por at h
  cases hps : p s with
  | some v =>
      obtain ⟨va, vr⟩ := v
      rw [hps] at h
      simp at h
      rw [← h.2]
      exact hp s va vr hps
  | none => rw [hps] at h; exact hq s a r h

theorem pGuarded_le {α β : Type} (n : ParserM α) (p : ParserM β)
    (hp : ConsumesLe p) : ConsumesLe (pGuarded n p) :=
  pmap_le _ _ (pseq_le _ _ (pIsNot_le n) hp)

theorem pGuarded_lt {α β : Type} (n : ParserM α) (p : ParserM β)
    (hp : ConsumesLt p) : ConsumesLt (pGuarded n p) := by
  refine pmap_lt _ _ ?_
  intro s a r h
  unfold pseq at h
  cases hps : pIsNot n s with
  | none => rw [hps] at h; simp at h
  | some ar =>
      obtain ⟨a', r'⟩ := ar
      rw [hps] at h
      simp at h
      cases hqs : p r' with
      | none => rw [hqs] at h; simp at h
      | some br =>
          obtain ⟨b, r2⟩ := br
          rw [hqs] at h
          simp at h
          rw [← h.2]
          rw [pIsNot_eq n s a' r' hps] at hqs
          exact hp s b r2 hqs

theorem manyA_le {α : Type} (p : ParserM α) (hp : ConsumesLe p) :
    ∀ (fuel : Nat) (s : List Char), (manyA p fuel s).2.length ≤ s.length := by
  intro fuel
  induction fuel with
  | zero => intro s; simp [manyA]
  | succ n ih =>
      intro s
      simp only [manyA]
      cases hps : p s with
      | none => simp
      | some ar =>
          obtain ⟨a, r⟩ := ar
          simp only []
          exact le_trans (ih r) (hp s a r hps)

theorem pMany_le {α : Type} (p : ParserM α) (hp : ConsumesLe p) : ConsumesLe (pMany p) := by
  intro s a r h
  unfold pMany at h
  simp at h
  have h2 : (manyA p (s.length + 1) s).2 = r := by rw [h]
  rw [← h2]
  exact manyA_le p hp _ s

theorem pManyN_le {α : Type} (n : Nat) (p : ParserM α) (hp : ConsumesLe p) :
    ConsumesLe (pManyN n p) := by
  intro s a r h
  unfold pManyN at h
  by_cases hc : n ≤ (manyA p (s.length + 1) s).1.length
  · rw [if_pos hc] at h
    simp at h
    have h2 : (manyA p (s.length + 1) s).2 = r := by rw [h]
    rw [← h2]
    exact manyA_le p hp _ s
  · rw [if_neg hc] at h
    cases h

theorem pManyN_lt {α : Type} (n : Nat) (hn : 1 ≤ n) (p : ParserM α)
    (hple : ConsumesLe p) (hp : ConsumesLt p) : ConsumesLt (pManyN n p) := by
  intro s a r h
  unfold pManyN at h
  by_cases hc : n ≤ (manyA p (s.length + 1) s).1.length
  · rw [if_pos hc] at h
    simp at h
    have h2 : (manyA p (s.length + 1) s).2 = r := by rw [h]
    rw [← h2]
    cases hfs : p s with
    | none =>
        have hz : manyA p (s.length + 1) s = ([], s) := by
          simp only [manyA, hfs]
        rw [hz] at hc
        simp at hc
        omega
    | some ar =>
        obtain ⟨a', r'⟩ := ar
        have hs : manyA p (s.length + 1) s
            = (a' :: (manyA p s.length r').1, (manyA p s.length r').2) := by
          simp only [manyA, hfs]
        rw [hs]
        have h1 : r'.length < s.length := hp s a' r' hfs
        have h2 : (manyA p s.length r').2.length ≤ r'.length := manyA_le p hple _ r'
        exact lt_of_le_of_lt h2 h1
  · rw [if_neg hc] at h
    cases h

theorem pRemLength_le : ConsumesLe pRemLength := by
  intro s a r h
  unfold pRemLength at h
  simp at h
  rw [← h.2]

theorem newlineP_lt : ConsumesLt newlineP :=
  por_lt _ _ (pTStr_lt _ (by decide))
    (por_lt _ _ (pTStr_lt _ (by decide)) (pTStr_lt _ (by decide)))

theorem newlineP_le : ConsumesLe newlineP :=
  fun s a r h => le_of_lt (newlineP_lt s a r h)

theorem pAnyChar_le : ConsumesLe pAnyChar :=
  fun s a r h => le_of_lt (pAnyChar_lt s a r h)

theorem inlineCodeP_lt : ConsumesLt inlineCodeP :=
  pmap_lt _ _ (pseq_lt_left _ _
    (pseq_lt_left _ _ (pTStr_lt _ (by decide))
      (pManyN_le _ _ (pGuarded_le _ _ pAnyChar_le)))
    (pTStr_le _))

theorem multiCodeP_lt : ConsumesLt multiCodeP :=
  pmap_lt _ _ (pseq_lt_left _ _
    (pseq_lt_left _ _ (pTStr_lt _ (by decide))
      (pManyN_le _ _ (pGuarded_le _ _ pAnyChar_le)))
    (pTStr_le _))

theorem codeP_lt : ConsumesLt codeP := por_lt _ _ inlineCodeP_lt multiCodeP_lt

theorem inlineMathP_lt : ConsumesLt inlineMathP :=
  pmap_lt _ _ (pseq_lt_left _ _
    (pseq_lt_left _ _ (pTStr_lt _ (by decide))
      (pManyN_le _ _ (pGuarded_le _ _ pAnyChar_le)))
    (pTStr_le _))

theorem displayMathP_lt : ConsumesLt displayMathP :=
  pmap_lt _ _ (pseq_lt_left _ _
    (pseq_lt_left _ _ (pTStr_lt _ (by decide))
      (pManyN_le _ _ (pGuarded_le _ _ pAnyChar_le)))
    (pTStr_le _))

theorem mathElemP_lt : ConsumesLt mathElemP := por_lt _ _ inlineMathP_lt displayMathP_lt

theorem linkP_lt : ConsumesLt linkP :=
  pmap_lt _ _ (pseq_lt_left _ _
    (pseq_lt_left _ _
      (pseq_lt_left _ _
        (pseq_lt_right _ _ (pOpt_le _ (pTStr_le _)) (pTStr_lt _ (by decide)))
        (pManyN_le _ _ (pGuarded_le _ _ pAnyChar_le)))
      (pOpt_le _ (pmap_le _ _ (pseq_le _ _ (pTStr_le _)
        (pManyN_le _ _ (pGuarded_le _ _ pAnyChar_le))))))
    (pTStr_le _))

theorem elementP_lt : ConsumesLt elementP :=
  por_lt _ _ (pmap_lt _ _ codeP_lt)
    (por_lt _ _ (pmap_lt _ _ mathElemP_lt)
      (por_lt _ _ (pmap_lt _ _ linkP_lt) (pmap_lt _ _ pAnyChar_lt)))

theorem elementP_le : ConsumesLe elementP :=
  fun s a r h => le_of_lt (elementP_lt s a r h)

theorem headingP_lt : ConsumesLt headingP :=
  pmap_lt _ _ (pseq_lt_left _ _
    (pseq_lt_left _ _
      (pseq_lt_left _ _
        (pManyN_lt 1 le_rfl _ (pTStr_le _) (pTStr_lt _ (by decide)))
        (pTStr_le _))
      (pMany_le _ (pGuarded_le _ _ elementP_le)))
    newlineP_le)

theorem tagP_lt : ConsumesLt tagP :=
  pmap_lt _ _ (pseq_lt_left _ _ (pTStr_lt _ (by decide))
    (pManyN_le _ _ (pGuarded_le _ _ pAnyChar_le)))

theorem clozeP_lt : ConsumesLt clozeP :=
  pmap_lt _ _ (pseq_lt_left _ _
    (pseq_lt_left _ _ (pTStr_lt _ (by decide))
      (pManyN_le _ _ (pGuarded_le _ _ elementP_le)))
    (pTStr_le _))

theorem clozeP_le : ConsumesLe clozeP :=
  fun s a r h => le_of_lt (clozeP_lt s a r h)

theorem noteIdP_le : ConsumesLe noteIdP :=
  pmap_le _ _ (pseq_le _ _
    (pseq_le _ _
      (pseq_le _ _
        (pseq_le _ _ newlineP_le (pTStr_le _))
        (pManyN_le _ _ (fun s a r h => le_of_lt (pRanged_lt _ _ s a r h))))
      (pTStr_le _))
    (pOpt_le _ newlineP_le))

theorem clozeLinesP_lt : ConsumesLt clozeLinesP :=
  pmap_lt _ _ (pseq_lt_left _ _
    (pseq_lt_left _ _
      (pseq_lt_left _ _
        (pseq_lt_right _ _
          (pMany_le _ (pGuarded_le _ _ elementP_le))
          clozeP_lt)
        (pMany_le _ (por_le _ _ (pmap_le _ _ clozeP_le)
          (pmap_le _ _ (pGuarded_le _ _ elementP_le)))))
      (pOpt_le _ noteIdP_le))
    pRemLength_le)

theorem fileElemP_lt : ConsumesLt fileElemP :=
  por_lt _ _ (pmap_lt _ _ clozeLinesP_lt)
    (por_lt _ _ (pmap_lt _ _ headingP_lt)
      (por_lt _ _ (pmap_lt _ _ tagP_lt)
        (por_lt _ _ (pmap_lt _ _ codeP_lt)
          (por_lt _ _ (pmap_lt _ _ mathElemP_lt)
            (por_lt _ _ (pmap_lt _ _ linkP_lt) (pmap_lt _ _ pAnyChar_lt))))))

theorem por_none {α : Type} (p q : ParserM α) (s : List Char)
    (h : por p q s = none) : p s = none ∧ q s = none := by
  unfold por at h
  cases hps : p s with
  | some v => rw [hps] at h; cases h
  | none => rw [hps] at h; exact ⟨rfl, h⟩

theorem pmap_none {α β : Type} (f : α → β) (p : ParserM α) (s : List Char)
    (h : pmap f p s = none) : p s = none := by
  unfold pmap at h
  cases hps : p s with
  | some v => obtain ⟨a, r⟩ := v; rw [hps] at h; simp at h
  | none => rfl

theorem fileElemP_ne_none (c : Char) (s : List Char) : fileElemP (c :: s) ≠ none := by
  intro h
  unfold fileElemP at h
  have h1 := (por_none _ _ _ h).2
  have h2 := (por_none _ _ _ h1).2
  have h3 := (por_none _ _ _ h2).2
  have h4 := (por_none _ _ _ h3).2
  have h5 := (por_none _ _ _ h4).2
  have h6 := (por_none _ _ _ h5).2
  have h7 := pmap_none _ _ _ h6
  simp [pAnyChar] at h7

theorem manyA_drains {α : Type} (p : ParserM α) (hp : ConsumesLt p) :
    ∀ (fuel : Nat) (s : List Char), s.length < fuel → p ((manyA p fuel s).2) = none := by
  intro fuel
  induction fuel with
  | zero => intro s h; omega
  | succ n ih =>
      intro s h
      simp only [manyA]
      cases hps : p s with
      | none => simpa using hps
      | some ar =>
          obtain ⟨a, r⟩ := ar
          have hr : r.length < s.length := hp s a r hps
          simpa using ih r (by omega)

/-! ## Claim theorem: C6 -/

/-- C6: for every input, `File::tparse` (modelled by `parseFile`, which
includes the `AllConsumed` check) succeeds and consumes the entire input:
every `FileElement` alternative falls back to the single-character match, so
the repetition only ever stops at end of input and the `expect` in
`handle_md` (src/handle_md.rs lines 133-134) can never panic. -/
theorem c6_parse_total (s : List Char) : (parseFile s).isSome := by
  have hdrain := manyA_drains fileElemP fileElemP_lt (s.length + 1) s (by omega)
  cases hm : manyA fileElemP (s.length + 1) s with
  | mk es rest =>
      cases rest with
      | nil =>
          unfold parseFile pMany
          rw [hm]
          simp
      | cons c rest' =>
          rw [hm] at hdrain
          exact absurd hdrain (fileElemP_ne_none c rest')

/-! ## Evaluation lemmas for specific parsers -/

theorem manyA_stops {α : Type} (p : ParserM α) (fuel : Nat) (s : List Char)
    (h : p s = none) : manyA p fuel s = ([], s) := by
  cases fuel with
  | zero => rfl
  | succ n => simp only [manyA, h]

theorem pTStr_self_append (lit t : List Char) : pTStr lit (lit ++ t) = some ((), t) := by
  unfold pTStr
  rw [if_pos (List.isPrefixOf_iff_prefix.mpr (List.prefix_append lit t))]
  rw [List.drop_left]

theorem newlineP_lf (t : List Char) : newlineP ('\n' :: t) = some ((), t) := by
  have h1 : (['\r'] : List Char).isPrefixOf ('\n' :: t) = false := by
    simp only [List.isPrefixOf]
    rw [show ('\r' == '\n') = false from by decide]
    simp
  have h2 : (['\n'] : List Char).isPrefixOf ('\n' :: t) = true := by
    simp [List.isPrefixOf]
  unfold newlineP por pTStr
  simp [h1, h2]

theorem manyA_digits (ds rest : List Char) (fuel : Nat)
    (hds : ∀ c ∈ ds, '0' ≤ c ∧ c ≤ '9')
    (hrest : pRanged '0' '9' rest = none)
    (hfuel : ds.length ≤ fuel) :
    manyA (pRanged '0' '9') fuel (ds ++ rest) = (ds, rest) := by
  induction ds generalizing fuel with
  | nil =>
      simpa using manyA_stops _ fuel rest hrest
  | cons c ds' ih =>
      cases fuel with
      | zero => simp at hfuel
      | succ n =>
          have hc := hds c (by simp)
          have hstep : pRanged '0' '9' (c :: (ds' ++ rest)) = some (c, ds' ++ rest) := by
            simp [pRanged, hc]
          have htail := ih n (fun d hd => hds d (by simp [hd]))
            (by simpa using Nat.le_of_succ_le_succ hfuel)
          simp only [List.cons_append, manyA, hstep, htail]

theorem noteIdP_accepts (ds : List Char) (h10 : 10 ≤ ds.length)
    (hds : ∀ c ∈ ds, '0' ≤ c ∧ c ≤ '9') :
    noteIdP ('\n' :: (noteIdStart ++ (ds ++ noteIdEnd))) = some (ds, []) := by
  have e1 := newlineP_lf (noteIdStart ++ (ds ++ noteIdEnd))
  have e2 : pTStr noteIdStart (noteIdStart ++ (ds ++ noteIdEnd))
      = some ((), ds ++ noteIdEnd) := pTStr_self_append _ _
  have hrest : pRanged '0' '9' noteIdEnd = none := by decide
  have e3 : manyA (pRanged '0' '9') ((ds ++ noteIdEnd).length + 1) (ds ++ noteIdEnd)
      = (ds, noteIdEnd) :=
    manyA_digits ds noteIdEnd _ hds hrest (by simp [List.length_append]; omega)
  have e4 : pManyN 10 (pRanged '0' '9') (ds ++ noteIdEnd) = some (ds, noteIdEnd) := by
    unfold pManyN
    rw [e3]
    rw [if_pos h10]
  have e5 : pTStr noteIdEnd noteIdEnd = some ((), []) := by
    have h := pTStr_self_append noteIdEnd []
    simpa using h
  have e6 : pOpt newlineP ([] : List Char) = some (none, []) := by decide
  simp only [noteIdP, pmap, pseq, e1, e2, e4, e5, e6]

/-! ## Decimal rendering: `decChars (foldDigits ds)` is a suffix of `ds` -/

theorem decCharsAux_eq (fuel : Nat) :
    ∀ n : Nat, n ≤ fuel →
      decCharsAux fuel n = ((Nat.digits 10 n).map Nat.digitChar).reverse := by
  induction fuel with
  | zero =>
      intro n hn
      have : n = 0 := Nat.le_zero.mp hn
      subst this
      simp [decCharsAux]
  | succ m ih =>
      intro n hn
      cases n with
      | zero => simp [decCharsAux]
      | succ k =>
          have hdiv : (k + 1) / 10 ≤ m := by
            have := Nat.div_lt_self (Nat.succ_pos k) (by norm_num : 1 < 10)
            omega
          rw [show decCharsAux (m + 1) (k + 1)
              = decCharsAux m ((k + 1) / 10) ++ [Nat.digitChar ((k + 1) % 10)] from rfl]
          rw [ih _ hdiv]
          rw [Nat.digits_def' (by norm_num : (1 : ℕ) < 10) (Nat.succ_pos k)]
          simp

theorem decChars_eq (n : Nat) (hn : n ≠ 0) :
    decChars n = ((Nat.digits 10 n).map Nat.digitChar).reverse := by
  unfold decChars
  rw [if_neg hn]
  exact decCharsAux_eq n n le_rfl

theorem decChars_ne_nil (n : Nat) : decChars n ≠ [] := by
  by_cases hn : n = 0
  · subst hn; simp [decChars]
  · rw [decChars_eq n hn]
    simp
    exact Nat.digits_ne_nil_iff_ne_zero.mpr hn

theorem digitChar_val (k : Nat) (hk : k ≤ 9) : (Nat.digitChar k).toNat = 48 + k := by
  interval_cases k <;> decide

theorem char_digit_toNat (c : Char) (h0 : '0' ≤ c) (h9 : c ≤ '9') :
    48 ≤ c.toNat ∧ c.toNat ≤ 57 := by
  exact ⟨h0, h9⟩

theorem digitChar_roundtrip (c : Char) (h0 : '0' ≤ c) (h9 : c ≤ '9') :
    Nat.digitChar (c.toNat - 48) = c := by
  obtain ⟨h48, h57⟩ := char_digit_toNat c h0 h9
  have hk9 : c.toNat - 48 ≤ 9 := by omega
  have hval := digitChar_val _ hk9
  have heq : (Nat.digitChar (c.toNat - 48)).toNat = c.toNat := by omega
  exact Char.ext (UInt32.ext heq)

/-- The char-to-digit value used by the fold (Rust's `to_digit(10)`). -/
theorem foldDigits_cons (c : Char) (ds : List Char) (acc : Nat) :
    (c :: ds).foldl (fun a d => a * 10 + (d.toNat - 48)) acc
      = ds.foldl (fun a d => a * 10 + (d.toNat - 48)) (acc * 10 + (c.toNat - 48)) := rfl

theorem foldl_digits_ofDigits (ds : List Char) :
    ∀ acc : Nat,
      ds.foldl (fun a d => a * 10 + (d.toNat - 48)) acc
        = acc * 10 ^ ds.length + Nat.ofDigits 10 ((ds.map (fun d => d.toNat - 48)).reverse) := by
  induction ds with
  | nil => intro acc; simp [Nat.ofDigits]
  | cons c ds' ih =>
      intro acc
      rw [foldDigits_cons, ih]
      simp only [List.map_cons, List.reverse_cons, Nat.ofDigits_append, List.length_cons,
        List.length_reverse, List.length_map]
      rw [show Nat.ofDigits 10 [c.toNat - 48] = (c.toNat - 48 : ℕ) by simp [Nat.ofDigits]]
      ring

theorem digitsVal_eq_ofDigits (ds : List Char) :
    digitsVal ds = Nat.ofDigits 10 ((ds.map (fun d => d.toNat - 48)).reverse) := by
  unfold digitsVal
  rw [foldl_digits_ofDigits ds 0]
  simp

theorem foldl_digits_mono (ds : List Char) :
    ∀ acc : Nat, acc ≤ ds.foldl (fun a c => a * 10 + (c.toNat - 48)) acc := by
  induction ds with
  | nil => intro acc; simp
  | cons c t ih =>
      intro acc
      rw [foldDigits_cons]
      calc acc ≤ acc * 10 + (c.toNat - 48) := by omega
        _ ≤ _ := ih _

/-- The wrapping fold agrees with the unbounded one as long as the final
value fits in `u64` (the fold is monotone, so no intermediate step wraps). -/
theorem foldl_digits_wrap (ds : List Char) :
    ∀ acc : Nat,
      ds.foldl (fun a c => a * 10 + (c.toNat - 48)) acc < u64size →
      ds.foldl (fun a c => (a * 10 + (c.toNat - 48)) % u64size) acc
        = ds.foldl (fun a c => a * 10 + (c.toNat - 48)) acc := by
  induction ds with
  | nil => intro acc _; simp
  | cons c t ih =>
      intro acc h
      rw [foldDigits_cons] at h
      rw [List.foldl_cons, List.foldl_cons]
      have hstep : acc * 10 + (c.toNat - 48) < u64size := by
        have hm := foldl_digits_mono t (acc * 10 + (c.toNat - 48))
        omega
      rw [Nat.mod_eq_of_lt hstep]
      exact ih _ h

theorem foldDigits_eq_digitsVal (ds : List Char) (h : digitsVal ds < u64size) :
    foldDigits ds = digitsVal ds := by
  unfold foldDigits digitsVal
  exact foldl_digits_wrap ds 0 h

theorem foldDigits_zeros (zs : List Char) (hz : ∀ c ∈ zs, c = '0') :
    ∀ acc, zs.foldl (fun a d => a * 10 + (d.toNat - 48)) acc = acc * 10 ^ zs.length := by
  induction zs with
  | nil => intro acc; simp
  | cons c zs' ih =>
      intro acc
      rw [foldDigits_cons]
      have hc : c = '0' := hz c (by simp)
      subst hc
      rw [ih (fun d hd => hz d (by simp [hd]))]
      rw [show ('0'.toNat - 48 : ℕ) = 0 from rfl]
      rw [List.length_cons]
      ring

theorem digitsVal_strip (zs t : List Char) (hz : ∀ c ∈ zs, c = '0') :
    digitsVal (zs ++ t) = digitsVal t := by
  unfold digitsVal
  rw [List.foldl_append]
  rw [foldDigits_zeros zs hz 0]
  simp

theorem dropWhile_head_not (p : Char → Bool) (l : List Char) (c : Char) (t : List Char)
    (h : l.dropWhile p = c :: t) : p c = false := by
  induction l with
  | nil => simp [List.dropWhile] at h
  | cons x xs ih =>
      rw [List.dropWhile] at h
      by_cases hx : p x
      · rw [hx] at h; simpa using ih h
      · rw [Bool.not_eq_true] at hx
        rw [hx] at h
        simp at h
        rw [← h.1]
        exact hx

theorem takeWhile_all (p : Char → Bool) (l : List Char) :
    ∀ c ∈ l.takeWhile p, p c = true :=
  fun _ hc => List.mem_takeWhile_imp hc

theorem map_digit_roundtrip (l : List Char) (h : ∀ x ∈ l, '0' ≤ x ∧ x ≤ '9') :
    l.map (fun d => Nat.digitChar (d.toNat - 48)) = l := by
  induction l with
  | nil => rfl
  | cons x xs ih =>
      simp only [List.map_cons]
      rw [digitChar_roundtrip x (h x (by simp)).1 (h x (by simp)).2]
      rw [ih (fun y hy => h y (by simp [hy]))]

theorem getLast_append_single (M : List Nat) (a : Nat) (h : M ++ [a] ≠ []) :
    (M ++ [a]).getLast h = a := by
  rw [List.getLast_append_of_ne_nil (by simp)]
  simp

/-- The central arithmetic fact behind the reverse search in the
replace-old-id branch: as long as the digit run's value fits in `u64` (no
wrap), the decimal rendering of the folded value is a suffix of the run
(leading zeros only shrink). -/
theorem decChars_foldDigits_suffix (ds : List Char) (hne : ds ≠ [])
    (hds : ∀ c ∈ ds, '0' ≤ c ∧ c ≤ '9') (hsm : digitsVal ds < u64size) :
    decChars (foldDigits ds) <:+ ds := by
  rw [foldDigits_eq_digitsVal ds hsm]
  have hsplit : ds.takeWhile (fun c => c == '0') ++ ds.dropWhile (fun c => c == '0') = ds :=
    List.takeWhile_append_dropWhile (fun c => c == '0') ds
  have hz : ∀ c ∈ ds.takeWhile (fun c => c == '0'), c = '0' := by
    intro c hc
    have := takeWhile_all _ ds c hc
    simpa using this
  cases ht : ds.dropWhile (fun c => c == '0') with
  | nil =>
      have hzero : ∀ c ∈ ds, c = '0' := by
        intro c hc
        rw [← hsplit, ht] at hc
        simp at hc
        exact hz c hc
      have hval : digitsVal ds = 0 := by
        unfold digitsVal
        rw [foldDigits_zeros ds hzero 0]
        simp
      rw [hval]
      rw [show decChars 0 = ['0'] from rfl]
      have hlast : ds.getLast hne = '0' := hzero _ (List.getLast_mem hne)
      have hds' := List.dropLast_append_getLast hne
      rw [hlast] at hds'
      exact ⟨ds.dropLast, hds'⟩
  | cons c t =>
      have hcne : ¬ (c = '0') := by
        have := dropWhile_head_not _ ds c t ht
        simpa using this
      have hmem : ∀ x ∈ c :: t, '0' ≤ x ∧ x ≤ '9' := by
        intro x hx
        refine hds x ?_
        rw [← hsplit, ht]
        exact List.mem_append_right _ hx
      have hstrip : digitsVal ds = digitsVal (c :: t) := by
        rw [← hsplit, ht]
        exact digitsVal_strip _ _ hz
      have hrev : ((c :: t).map (fun d => d.toNat - 48)).reverse
          = (t.map (fun d => d.toNat - 48)).reverse ++ [c.toNat - 48] := by
        simp
      have hvals : digitsVal (c :: t)
          = Nat.ofDigits 10 ((t.map (fun d => d.toNat - 48)).reverse ++ [c.toNat - 48]) := by
        rw [digitsVal_eq_ofDigits, hrev]
      have hw1 : ∀ l ∈ (t.map (fun d => d.toNat - 48)).reverse ++ [c.toNat - 48], l < 10 := by
        intro l hl
        rw [List.mem_append, List.mem_reverse, List.mem_map] at hl
        rcases hl with ⟨x, hx, hval⟩ | hl
        · obtain ⟨h48, h57⟩ :=
            char_digit_toNat x (hmem x (by simp [hx])).1 (hmem x (by simp [hx])).2
          omega
        · simp at hl
          obtain ⟨h48, h57⟩ := char_digit_toNat c (hmem c (by simp)).1 (hmem c (by simp)).2
          omega
      have hw2 : ∀ h : (t.map (fun d : Char => d.toNat - 48)).reverse ++ [c.toNat - 48] ≠ [],
          ((t.map (fun d : Char => d.toNat - 48)).reverse ++ [c.toNat - 48]).getLast h ≠ 0 := by
        intro h
        rw [getLast_append_single]
        intro hzero
        obtain ⟨h48, h57⟩ := char_digit_toNat c (hmem c (by simp)).1 (hmem c (by simp)).2
        refine hcne (Char.ext (UInt32.ext ?_))
        show c.toNat = '0'.toNat
        have h0v : ('0'.toNat : Nat) = 48 := rfl
        omega
      have hdig := Nat.digits_ofDigits 10 (by norm_num) _ hw1 hw2
      have hnz : digitsVal (c :: t) ≠ 0 := by
        intro h0
        rw [hvals] at h0
        rw [h0] at hdig
        simp at hdig
      have hdc : decChars (digitsVal (c :: t)) = c :: t := by
        rw [decChars_eq _ hnz, hvals, hdig]
        simp only [List.map_append, List.reverse_append, List.map_reverse,
          List.reverse_reverse, List.map_map, List.map_cons, List.map_nil,
          List.reverse_cons, List.reverse_nil, List.nil_append, List.singleton_append]
        rw [digitChar_roundtrip c (hmem c (by simp)).1 (hmem c (by simp)).2]
        have h2 := map_digit_roundtrip t (fun y hy => hmem y (by simp [hy]))
        have h3 : t.map (Nat.digitChar ∘ fun d => d.toNat - 48) = t := by
          simpa [Function.comp] using h2
        rw [h3]
      rw [hstrip, hdc]
      rw [← hsplit, ht]
      exact List.suffix_append _ _

/-! ## Suffix-consumption lemmas -/

theorem pTStr_decomp (lit s : List Char) (a : Unit) (r : List Char)
    (h : pTStr lit s = some (a, r)) : s = lit ++ r := by
  unfold pTStr at h
  by_cases hc : lit.isPrefixOf s
  · rw [if_pos hc] at h
    simp at h
    obtain ⟨t, ht⟩ := List.isPrefixOf_iff_prefix.mp hc
    subst ht
    rw [← h]
    rw [List.drop_left]
  · rw [if_neg hc] at h
    cases h

theorem pTStr_suffix (lit : List Char) : ConsumesSuffix (pTStr lit) := by
  intro s a r h
  rw [pTStr_decomp lit s a r h]
  exact List.suffix_append _ _

theorem pAnyChar_suffix : ConsumesSuffix pAnyChar := by
  intro s a r h
  cases s with
  | nil => exact absurd h (by simp [pAnyChar])
  | cons c rest =>
      have hr : rest = r := by
        simp [pAnyChar] at h
        exact h.2
      rw [← hr]
      exact List.suffix_cons c rest

theorem pRanged_inv (lo hi : Char) (s : List Char) (a : Char) (r : List Char)
    (h : pRanged lo hi s = some (a, r)) : s = a :: r ∧ lo ≤ a ∧ a ≤ hi := by
  cases s with
  | nil => exact absurd h (by simp [pRanged])
  | cons c rest =>
      by_cases hc : lo ≤ c ∧ c ≤ hi
      · have hcr : c = a ∧ rest = r := by
          simp [pRanged, hc] at h
          exact h
        rw [← hcr.1, ← hcr.2]
        exact ⟨rfl, hc⟩
      · exact absurd h (by simp [pRanged, hc])

theorem pRanged_suffix (lo hi : Char) : ConsumesSuffix (pRanged lo hi) := by
  intro s a r h
  rw [(pRanged_inv lo hi s a r h).1]
  exact List.suffix_cons a r

theorem pIsNot_suffix {α : Type} (p : ParserM α) : ConsumesSuffix (pIsNot p) := by
  intro s a r h
  rw [pIsNot_eq p s a r h]

theorem pOpt_suffix {α : Type} (p : ParserM α) (hp : ConsumesSuffix p) :
    ConsumesSuffix (pOpt p) := by
  intro s a r h
  unfold pOpt at h
  cases hps : p s with
  | some ar =>
      obtain ⟨a', r'⟩ := ar
      rw [hps] at h
      simp at h
      rw [← h.2]
      exact hp s a' r' hps
  | none =>
      rw [hps] at h
      simp at h
      rw [← h.2]

theorem pmap_suffix {α β : Type} (f : α → β) (p : ParserM α) (hp : ConsumesSuffix p) :
    ConsumesSuffix (pmap f p) := by
  intro s a r h
  unfold pmap at h
  cases hps : p s with
  | some ar =>
      obtain ⟨a', r'⟩ := ar
      rw [hps] at h
      simp at h
      rw [← h.2]
      exact hp s a' r' hps
  | none => rw [hps] at h; simp at h

theorem pseq_suffix {α β : Type} (p : ParserM α) (q : ParserM β)
    (hp : ConsumesSuffix p) (hq : ConsumesSuffix q) : ConsumesSuffix (pseq p q) := by
  intro s a r h
  unfold pseq at h
  cases hps : p s with
  | none => rw [hps] at h; simp at h
  | some ar =>
      obtain ⟨a', r'⟩ := ar
      rw [hps] at h
      simp at h
      cases hqs : q r' with
      | none => rw [hqs] at h; simp at h
      | some br =>
          obtain ⟨b, r2⟩ := br
          rw [hqs] at h
          simp at h
          rw [← h.2]
          exact (hq r' b r2 hqs).trans (hp s a' r' hps)

theorem por_suffix {α : Type} (p q : ParserM α)
    (hp : ConsumesSuffix p) (hq : ConsumesSuffix q) : ConsumesSuffix (por p q) := by
  intro s a r h
  unfold por at h
  cases hps : p s with
  | some v =>
      obtain ⟨va, vr⟩ := v
      rw [hps] at h
      simp at h
      rw [← h.2]
      exact hp s va vr hps
  | none => rw [hps] at h; exact hq s a r h

theorem pGuarded_suffix {α β : Type} (n : ParserM α) (p : ParserM β)
    (hp : ConsumesSuffix p) : ConsumesSuffix (pGuarded n p) :=
  pmap_suffix _ _ (pseq_suffix _ _ (pIsNot_suffix n) hp)

theorem manyA_suffix {α : Type} (p : ParserM α) (hp : ConsumesSuffix p) :
    ∀ (fuel : Nat) (s : List Char), (manyA p fuel s).2 <:+ s := by
  intro fuel
  induction fuel with
  | zero => intro s; simp [manyA]
  | succ n ih =>
      intro s
      simp only [manyA]
      cases hps : p s with
      | none => simp
      | some ar =>
          obtain ⟨a, r⟩ := ar
          simp only []
          exact (ih r).trans (hp s a r hps)

theorem pMany_suffix {α : Type} (p : ParserM α) (hp : ConsumesSuffix p) :
    ConsumesSuffix (pMany p) := by
  intro s a r h
  unfold pMany at h
  simp at h
  have h2 : (manyA p (s.length + 1) s).2 = r := by rw [h]
  rw [← h2]
  exact manyA_suffix p hp _ s

theorem pManyN_suffix {α : Type} (n : Nat) (p : ParserM α) (hp : ConsumesSuffix p) :
    ConsumesSuffix (pManyN n p) := by
  intro s a r h
  unfold pManyN at h
  by_cases hc : n ≤ (manyA p (s.length + 1) s).1.length
  · rw [if_pos hc] at h
    simp at h
    have h2 : (manyA p (s.length + 1) s).2 = r := by rw [h]
    rw [← h2]
    exact manyA_suffix p hp _ s
  · rw [if_neg hc] at h
    cases h

theorem pRemLength_suffix : ConsumesSuffix pRemLength := by
  intro s a r h
  unfold pRemLength at h
  simp at h
  rw [← h.2]

theorem newlineP_suffix : ConsumesSuffix newlineP :=
  por_suffix _ _ (pTStr_suffix _) (por_suffix _ _ (pTStr_suffix _) (pTStr_suffix _))

theorem codeP_suffix : ConsumesSuffix codeP :=
  por_suffix _ _
    (pmap_suffix _ _ (pseq_suffix _ _ (pseq_suffix _ _ (pTStr_suffix _)
      (pManyN_suffix _ _ (pGuarded_suffix _ _ pAnyChar_suffix))) (pTStr_suffix _)))
    (pmap_suffix _ _ (pseq_suffix _ _ (pseq_suffix _ _ (pTStr_suffix _)
      (pManyN_suffix _ _ (pGuarded_suffix _ _ pAnyChar_suffix))) (pTStr_suffix _)))

theorem mathElemP_suffix : ConsumesSuffix mathElemP :=
  por_suffix _ _
    (pmap_suffix _ _ (pseq_suffix _ _ (pseq_suffix _ _ (pTStr_suffix _)
      (pManyN_suffix _ _ (pGuarded_suffix _ _ pAnyChar_suffix))) (pTStr_suffix _)))
    (pmap_suffix _ _ (pseq_suffix _ _ (pseq_suffix _ _ (pTStr_suffix _)
      (pManyN_suffix _ _ (pGuarded_suffix _ _ pAnyChar_suffix))) (pTStr_suffix _)))

theorem linkP_suffix : ConsumesSuffix linkP :=
  pmap_suffix _ _ (pseq_suffix _ _ (pseq_suffix _ _ (pseq_suffix _ _
    (pseq_suffix _ _ (pOpt_suffix _ (pTStr_suffix _)) (pTStr_suffix _))
    (pManyN_suffix _ _ (pGuarded_suffix _ _ pAnyChar_suffix)))
    (pOpt_suffix _ (pmap_suffix _ _ (pseq_suffix _ _ (pTStr_suffix _)
      (pManyN_suffix _ _ (pGuarded_suffix _ _ pAnyChar_suffix))))))
    (pTStr_suffix _))

theorem elementP_suffix : ConsumesSuffix elementP :=
  por_suffix _ _ (pmap_suffix _ _ codeP_suffix)
    (por_suffix _ _ (pmap_suffix _ _ mathElemP_suffix)
      (por_suffix _ _ (pmap_suffix _ _ linkP_suffix)
        (pmap_suffix _ _ pAnyChar_suffix)))

theorem clozeP_suffix : ConsumesSuffix clozeP :=
  pmap_suffix _ _ (pseq_suffix _ _ (pseq_suffix _ _ (pTStr_suffix _)
    (pManyN_suffix _ _ (pGuarded_suffix _ _ elementP_suffix))) (pTStr_suffix _))

theorem noteIdP_suffix : ConsumesSuffix noteIdP :=
  pmap_suffix _ _ (pseq_suffix _ _ (pseq_suffix _ _ (pseq_suffix _ _
    (pseq_suffix _ _ newlineP_suffix (pTStr_suffix _))
    (pManyN_suffix _ _ (pRanged_suffix _ _))) (pTStr_suffix _))
    (pOpt_suffix _ newlineP_suffix))

theorem clozeLinesP_suffix : ConsumesSuffix clozeLinesP :=
  pmap_suffix _ _ (pseq_suffix _ _ (pseq_suffix _ _ (pseq_suffix _ _
    (pseq_suffix _ _ (pMany_suffix _ (pGuarded_suffix _ _ elementP_suffix)) clozeP_suffix)
    (pMany_suffix _ (por_suffix _ _ (pmap_suffix _ _ clozeP_suffix)
      (pmap_suffix _ _ (pGuarded_suffix _ _ elementP_suffix)))))
    (pOpt_suffix _ noteIdP_suffix)) pRemLength_suffix)

theorem headingP_suffix : ConsumesSuffix headingP :=
  pmap_suffix _ _ (pseq_suffix _ _ (pseq_suffix _ _ (pseq_suffix _ _
    (pManyN_suffix _ _ (pTStr_suffix _)) (pTStr_suffix _))
    (pMany_suffix _ (pGuarded_suffix _ _ elementP_suffix))) newlineP_suffix)

theorem tagP_suffix : ConsumesSuffix tagP :=
  pmap_suffix _ _ (pseq_suffix _ _ (pTStr_suffix _)
    (pManyN_suffix _ _ (pGuarded_suffix _ _ pAnyChar_suffix)))

theorem fileElemP_suffix : ConsumesSuffix fileElemP :=
  por_suffix _ _ (pmap_suffix _ _ clozeLinesP_suffix)
    (por_suffix _ _ (pmap_suffix _ _ headingP_suffix)
      (por_suffix _ _ (pmap_suffix _ _ tagP_suffix)
        (por_suffix _ _ (pmap_suffix _ _ codeP_suffix)
          (por_suffix _ _ (pmap_suffix _ _ mathElemP_suffix)
            (por_suffix _ _ (pmap_suffix _ _ linkP_suffix)
              (pmap_suffix _ _ pAnyChar_suffix))))))

/-! ## Parser inversion and positional specifications -/

theorem pmap_some_inv {α β : Type} (f : α → β) (p : ParserM α) (s : List Char)
    (y : β) (r : List Char) (h : pmap f p s = some (y, r)) :
    ∃ x, p s = some (x, r) ∧ y = f x := by
  unfold pmap at h
  cases hps : p s with
  | none => rw [hps] at h; simp at h
  | some ar =>
      obtain ⟨a, r'⟩ := ar
      rw [hps] at h
      simp at h
      refine ⟨a, ?_, h.1.symm⟩
      rw [h.2]

theorem por_some_inv {α : Type} (p q : ParserM α) (s : List Char)
    (v : α × List Char) (h : por p q s = some v) :
    p s = some v ∨ (p s = none ∧ q s = some v) := by
  unfold por at h
  cases hps : p s with
  | some w =>
      rw [hps] at h
      simp at h
      exact Or.inl (by rw [h])
  | none => rw [hps] at h; exact Or.inr ⟨rfl, h⟩

theorem pOpt_some_inv {α : Type} (p : ParserM α) (s : List Char) (a : α)
    (r : List Char) (h : pOpt p s = some (some a, r)) : p s = some (a, r) := by
  unfold pOpt at h
  cases hps : p s with
  | some ar =>
      obtain ⟨a', r'⟩ := ar
      rw [hps] at h
      simp at h
      rw [h.1, h.2]
  | none =>
      rw [hps] at h
      simp at h

theorem pseq_some_inv {α β : Type} (p : ParserM α) (q : ParserM β) (s : List Char)
    (a : α) (b : β) (r : List Char) (h : pseq p q s = some ((a, b), r)) :
    ∃ m, p s = some (a, m) ∧ q m = some (b, r) := by
  unfold pseq at h
  cases hps : p s with
  | none => rw [hps] at h; simp at h
  | some ar =>
      obtain ⟨a', m⟩ := ar
      rw [hps] at h
      simp at h
      cases hqs : q m with
      | none => rw [hqs] at h; simp at h
      | some br =>
          obtain ⟨b', r'⟩ := br
          rw [hqs] at h
          simp at h
          refine ⟨m, by rw [h.1.1], by rw [hqs, h.1.2, h.2]⟩

theorem manyA_ranged_decomp (lo hi : Char) : ∀ (fuel : Nat) (s : List Char),
    s = (manyA (pRanged lo hi) fuel s).1 ++ (manyA (pRanged lo hi) fuel s).2 ∧
    ∀ c ∈ (manyA (pRanged lo hi) fuel s).1, lo ≤ c ∧ c ≤ hi := by
  intro fuel
  induction fuel with
  | zero => intro s; simp [manyA]
  | succ n ih =>
      intro s
      simp only [manyA]
      cases hps : pRanged lo hi s with
      | none => simp
      | some ar =>
          obtain ⟨a, r⟩ := ar
          simp only []
          obtain ⟨hs, hlo, hhi⟩ := pRanged_inv lo hi s a r hps
          constructor
          · rw [hs]
            rw [show a :: r = a :: ((manyA (pRanged lo hi) n r).1 ++ (manyA (pRanged lo hi) n r).2) from by rw [← (ih r).1]]
            simp
          · intro c hc
            simp at hc
            rcases hc with hc | hc
            · rw [hc]; exact ⟨hlo, hhi⟩
            · exact (ih r).2 c hc

theorem pManyN_ranged_inv (n : Nat) (lo hi : Char) (s ds r : List Char)
    (h : pManyN n (pRanged lo hi) s = some (ds, r)) :
    s = ds ++ r ∧ (∀ c ∈ ds, lo ≤ c ∧ c ≤ hi) ∧ n ≤ ds.length := by
  unfold pManyN at h
  by_cases hc : n ≤ (manyA (pRanged lo hi) (s.length + 1) s).1.length
  · rw [if_pos hc] at h
    simp at h
    have h1 : (manyA (pRanged lo hi) (s.length + 1) s).1 = ds := by rw [h]
    have h2 : (manyA (pRanged lo hi) (s.length + 1) s).2 = r := by rw [h]
    have hdec := manyA_ranged_decomp lo hi (s.length + 1) s
    rw [h1, h2] at hdec
    rw [h1] at hc
    exact ⟨hdec.1, hdec.2, hc⟩
  · rw [if_neg hc] at h
    cases h

theorem noteIdP_spec (s ds r : List Char) (h : noteIdP s = some (ds, r)) :
    10 ≤ ds.length ∧ (∀ c ∈ ds, '0' ≤ c ∧ c ≤ '9') ∧
    ∃ A, s = A ++ r ∧ ds <:+: A := by
  obtain ⟨x, hx, hds⟩ := pmap_some_inv _ _ s ds r h
  obtain ⟨⟨⟨⟨u1, u2⟩, ds'⟩, u3⟩, o⟩ := x
  obtain ⟨m1, hm1, hrest⟩ := pseq_some_inv _ _ s _ _ r hx
  obtain ⟨m2, hm2, hrest2⟩ := pseq_some_inv _ _ s _ _ m1 hm1
  obtain ⟨m3, hm3, hrest3⟩ := pseq_some_inv _ _ s _ _ m2 hm2
  obtain ⟨m4, hm4, hrest4⟩ := pseq_some_inv _ _ s _ _ m3 hm3
  -- hm4 : newlineP s = some (u1, m4); hrest4 : pTStr noteIdStart m4 = some (u2, m3)
  -- hrest3 : pManyN 10 (pRanged '0' '9') m3 = some (ds', m2)
  -- hrest2 : pTStr noteIdEnd m2 = some (u3, m1); hrest : pOpt newlineP m1 = some (o, r)
  have hds2 : ds = ds' := by simpa using hds
  subst hds2
  obtain ⟨P1, hP1⟩ := newlineP_suffix s u1 m4 hm4
  have hT1 := pTStr_decomp _ _ _ _ hrest4
  obtain ⟨hm3eq, hdigits, hlen⟩ := pManyN_ranged_inv _ _ _ _ _ _ hrest3
  have hT2 := pTStr_decomp _ _ _ _ hrest2
  obtain ⟨P5, hP5⟩ := pOpt_suffix _ newlineP_suffix m1 o r hrest
  refine ⟨hlen, hdigits, P1 ++ (noteIdStart ++ (ds ++ (noteIdEnd ++ P5))), ?_, ?_⟩
  · rw [← hP1, hT1, hm3eq, hT2, ← hP5]
    simp
  · exact ⟨P1 ++ noteIdStart, noteIdEnd ++ P5, by simp⟩

theorem clozeLinesP_spec (s : List Char) (cl : ClozeLinesE) (r : List Char)
    (h : clozeLinesP s = some (cl, r)) :
    cl.rem = r.length ∧ r <:+ s ∧
    ∀ ds, cl.noteDigits = some ds →
      10 ≤ ds.length ∧ (∀ c ∈ ds, '0' ≤ c ∧ c ≤ '9') ∧
      ds <:+: (s.take (s.length - r.length)) := by
  obtain ⟨x, hx, hcl⟩ := pmap_some_inv _ _ s cl r h
  obtain ⟨⟨⟨⟨pre, fc⟩, rst⟩, o⟩, rem⟩ := x
  obtain ⟨m1, hm1, hrest⟩ := pseq_some_inv _ _ s _ _ r hx
  obtain ⟨m2, hm2, hrest2⟩ := pseq_some_inv _ _ s _ _ m1 hm1
  obtain ⟨m3, hm3, hrest3⟩ := pseq_some_inv _ _ s _ _ m2 hm2
  obtain ⟨m4, hm4, hrest4⟩ := pseq_some_inv _ _ s _ _ m3 hm3
  -- hm4 : pMany (prefix elements) s = some (pre, m4)
  -- hrest4 : clozeP m4 = some (fc, m3); hrest3 : pMany (tail) m3 = some (rst, m2)
  -- hrest2 : pOpt noteIdP m2 = some (o, m1); hrest : pRemLength m1 = some (rem, r)
  have hrem : rem = m1.length ∧ m1 = r := by
    unfold pRemLength at hrest
    simp at hrest
    exact ⟨hrest.1.symm, hrest.2⟩
  have hclv : cl = ClozeLinesE.mk pre fc rst o rem := by simpa using hcl
  have hsuf4 : m4 <:+ s := pMany_suffix _ (pGuarded_suffix _ _ elementP_suffix) s pre m4 hm4
  have hsuf3 : m3 <:+ m4 := clozeP_suffix m4 fc m3 hrest4
  have hsuf2 : m2 <:+ m3 :=
    pMany_suffix _ (por_suffix _ _ (pmap_suffix _ _ clozeP_suffix)
      (pmap_suffix _ _ (pGuarded_suffix _ _ elementP_suffix))) m3 rst m2 hrest3
  have hm2s : m2 <:+ s := (hsuf2.trans hsuf3).trans hsuf4
  have hsufr : r <:+ m2 := by
    rw [← hrem.2]
    exact pOpt_suffix _ noteIdP_suffix m2 o m1 hrest2
  refine ⟨by rw [hclv]; exact hrem.1.trans (by rw [hrem.2]), hsufr.trans hm2s, ?_⟩
  intro ds hds
  have ho : o = some ds := by
    rw [hclv] at hds
    exact hds
  subst ho
  rw [hrem.2] at hrest2
  have hinner := pOpt_some_inv _ _ _ _ hrest2
  obtain ⟨hlen, hdigits, A, hAeq, hAinf⟩ := noteIdP_spec m2 ds r hinner
  obtain ⟨B, hB⟩ := hm2s
  refine ⟨hlen, hdigits, ?_⟩
  have hseq : s = (B ++ A) ++ r := by
    rw [← hB, hAeq]
    simp
  have htake : s.take (s.length - r.length) = B ++ A := by
    rw [hseq]
    have hlen2 : ((B ++ A) ++ r).length - r.length = (B ++ A).length := by
      simp
      omega
    rw [hlen2]
    exact List.take_left _ _
  rw [htake]
  exact hAinf.trans (List.suffix_append B A).isInfix

theorem fileElemP_clozeLines_inv (s r : List Char) (cl : ClozeLinesE)
    (h : fileElemP s = some (.clozeLines cl, r)) : clozeLinesP s = some (cl, r) := by
  unfold fileElemP at h
  rcases por_some_inv _ _ _ _ h with h1 | ⟨_, h1⟩
  · obtain ⟨x, hx, heq⟩ := pmap_some_inv _ _ _ _ _ h1
    have : x = cl := by
      cases heq
      rfl
    rw [this] at hx
    exact hx
  · exfalso
    rcases por_some_inv _ _ _ _ h1 with h2 | ⟨_, h2⟩
    · obtain ⟨x, _, heq⟩ := pmap_some_inv _ _ _ _ _ h2
      cases heq
    · rcases por_some_inv _ _ _ _ h2 with h3 | ⟨_, h3⟩
      · obtain ⟨x, _, heq⟩ := pmap_some_inv _ _ _ _ _ h3
        cases heq
      · rcases por_some_inv _ _ _ _ h3 with h4 | ⟨_, h4⟩
        · obtain ⟨x, _, heq⟩ := pmap_some_inv _ _ _ _ _ h4
          cases heq
        · rcases por_some_inv _ _ _ _ h4 with h5 | ⟨_, h5⟩
          · obtain ⟨x, _, heq⟩ := pmap_some_inv _ _ _ _ _ h5
            cases heq
          · rcases por_some_inv _ _ _ _ h5 with h6 | ⟨_, h6⟩
            · obtain ⟨x, _, heq⟩ := pmap_some_inv _ _ _ _ _ h6
              cases heq
            · obtain ⟨x, _, heq⟩ := pmap_some_inv _ _ _ _ _ h6
              cases heq

theorem clWfB_mono (str : List Char) :
    ∀ (l : List ClozeLinesE) (b1 b2 : Nat), b1 ≤ b2 →
      clWfB str b2 l = true → clWfB str b1 l = true := by
  intro l
  induction l with
  | nil => intro b1 b2 _ _; rfl
  | cons cl rest ih =>
      intro b1 b2 hb h
      unfold clWfB at h ⊢
      simp only [Bool.and_eq_true, decide_eq_true_eq] at h ⊢
      obtain ⟨⟨⟨hle, hrem⟩, hdig⟩, htail⟩ := h
      refine ⟨⟨⟨le_trans hb hle, hrem⟩, ?_⟩, htail⟩
      cases hnd : cl.noteDigits with
      | none => simp
      | some ds =>
          rw [hnd] at hdig
          simp only [Bool.and_eq_true, decide_eq_true_eq] at hdig ⊢
          obtain ⟨⟨hne, hall⟩, hinf⟩ := hdig
          refine ⟨⟨hne, hall⟩, ?_⟩
          have hdrop : ((str.take (str.length - cl.rem)).drop b2)
              <:+ ((str.take (str.length - cl.rem)).drop b1) := by
            have hdd : (str.take (str.length - cl.rem)).drop b2
                = ((str.take (str.length - cl.rem)).drop b1).drop (b2 - b1) := by
              rw [List.drop_drop]
              congr 1
              omega
            rw [hdd]
            exact List.drop_suffix _ _
          exact hinf.trans hdrop.isInfix

theorem manyA_clWf (str : List Char) :
    ∀ (fuel : Nat) (s0 : List Char), s0 <:+ str →
      clWfB str (str.length - s0.length) (clozeLinesOf (manyA fileElemP fuel s0).1) = true := by
  intro fuel
  induction fuel with
  | zero => intro s0 _; simp [manyA, clozeLinesOf, clWfB]
  | succ n ih =>
      intro s0 hs0
      simp only [manyA]
      cases hps : fileElemP s0 with
      | none => simp [clozeLinesOf, clWfB]
      | some er =>
          obtain ⟨e, rx⟩ := er
          simp only []
          have hrs0 : rx <:+ s0 := fileElemP_suffix s0 e rx hps
          have hrstr : rx <:+ str := hrs0.trans hs0
          have hlen0 : s0.length ≤ str.length := hs0.length_le
          have hlenr : rx.length ≤ s0.length := hrs0.length_le
          have hbase : str.length - s0.length ≤ str.length - rx.length := by omega
          cases e with
          | clozeLines cl =>
              have hclp := fileElemP_clozeLines_inv s0 rx cl hps
              obtain ⟨hrem, hrsuf, hdig⟩ := clozeLinesP_spec s0 cl rx hclp
              have htail := ih rx hrstr
              simp only [clozeLinesOf]
              unfold clWfB
              simp only [Bool.and_eq_true, decide_eq_true_eq]
              refine ⟨⟨⟨by omega, by omega⟩, ?_⟩, ?_⟩
              · cases hnd : cl.noteDigits with
                | none => simp
                | some ds =>
                    obtain ⟨hlen, hall, hinf⟩ := hdig ds hnd
                    simp only [Bool.and_eq_true, decide_eq_true_eq]
                    refine ⟨⟨by intro hnil; rw [hnil] at hlen; simp at hlen, hall⟩, ?_⟩
                    obtain ⟨P, hP⟩ := hs0
                    have hlenstr : str.length = P.length + s0.length := by
                      rw [← hP]; simp
                    have h1 : str.length - cl.rem = P.length + (s0.length - rx.length) := by
                      rw [hrem]; omega
                    have h2 : str.length - s0.length = P.length := by omega
                    rw [h1, h2, ← hP, List.take_append, List.drop_left]
                    exact hinf
              · rw [hrem]
                exact htail
          | heading x =>
              simp only [clozeLinesOf]
              exact clWfB_mono str _ _ _ hbase (ih rx hrstr)
          | tag x =>
              simp only [clozeLinesOf]
              exact clWfB_mono str _ _ _ hbase (ih rx hrstr)
          | code x =>
              simp only [clozeLinesOf]
              exact clWfB_mono str _ _ _ hbase (ih rx hrstr)
          | math x =>
              simp only [clozeLinesOf]
              exact clWfB_mono str _ _ _ hbase (ih rx hrstr)
          | link x =>
              simp only [clozeLinesOf]
              exact clWfB_mono str _ _ _ hbase (ih rx hrstr)
          | ch x =>
              simp only [clozeLinesOf]
              exact clWfB_mono str _ _ _ hbase (ih rx hrstr)

/-! ## Fold transfer: pending notes correspond to parsed ClozeLines -/

theorem handle_cloze_lines_inv (o : MathOracles) (img : List Char → Option Picture)
    (pathStr : List Char) (headings : List (List Char)) (cl : ClozeLinesE)
    (cd : ClozeData) (h : handle_cloze_lines o img pathStr headings cl = some cd) :
    cd.note_id = cl.noteDigits.map foldDigits ∧ cd.remaining_length = cl.rem := by
  unfold handle_cloze_lines at h
  cases h1 : renderElems o img cl.pre [] [] with
  | none => rw [h1] at h; simp at h
  | some p1 =>
      obtain ⟨acc0, pics0⟩ := p1
      rw [h1] at h
      simp only [] at h
      cases h2 : renderClozeItem o img 1 cl.firstCloze acc0 pics0 with
      | none => rw [h2] at h; simp at h
      | some p2 =>
          obtain ⟨acc1, pics1⟩ := p2
          rw [h2] at h
          simp only [] at h
          cases h3 : handleRest o img cl.rest 1 acc1 pics1 with
          | none => rw [h3] at h; simp at h
          | some p3 =>
              obtain ⟨acc2, num2, pics2⟩ := p3
              rw [h3] at h
              simp at h
              rw [← h]
              exact ⟨rfl, rfl⟩

theorem foldFile_newClozes (o : MathOracles) (img : List Char → Option Picture)
    (pathStr : List Char) :
    ∀ (es : List FileElemE) (hs : List (List Char)) (cls : List ClozeData)
      (tags : List (List Char))
      (res : List (List Char) × List ClozeData × List (List Char)),
      foldFile o img pathStr es hs cls tags = some res →
      ∃ newCls, res.2.1 = cls ++ newCls ∧
        newCls.map (fun cd => (cd.note_id, cd.remaining_length))
          = (clozeLinesOf es).map (fun cl => (cl.noteDigits.map foldDigits, cl.rem)) := by
  intro es
  induction es with
  | nil =>
      intro hs cls tags res h
      unfold foldFile at h
      simp at h
      refine ⟨[], ?_, by simp [clozeLinesOf]⟩
      rw [← h]
      simp
  | cons e rest ih =>
      intro hs cls tags res h
      cases e with
      | clozeLines cl =>
          unfold foldFile at h
          cases h1 : handle_cloze_lines o img pathStr hs cl with
          | none => rw [h1] at h; simp at h
          | some cd =>
              rw [h1] at h
              obtain ⟨newCls', hres, hmap⟩ := ih hs (cls ++ [cd]) tags res h
              refine ⟨cd :: newCls', by rw [hres]; simp, ?_⟩
              simp only [clozeLinesOf, List.map_cons]
              rw [hmap]
              obtain ⟨hid, hrem⟩ := handle_cloze_lines_inv o img pathStr hs cl cd h1
              rw [hid, hrem]
      | heading hd =>
          unfold foldFile at h
          cases h1 : handle_heading_elem o img hd hs with
          | none => rw [h1] at h; simp at h
          | some hs' =>
              rw [h1] at h
              obtain ⟨newCls', hres, hmap⟩ := ih hs' cls tags res h
              exact ⟨newCls', hres, by simpa [clozeLinesOf] using hmap⟩
      | tag t =>
          unfold foldFile at h
          obtain ⟨newCls', hres, hmap⟩ := ih hs cls (tags ++ [t]) res h
          exact ⟨newCls', hres, by simpa [clozeLinesOf] using hmap⟩
      | code x =>
          unfold foldFile at h
          obtain ⟨newCls', hres, hmap⟩ := ih hs cls tags res h
          exact ⟨newCls', hres, by simpa [clozeLinesOf] using hmap⟩
      | math x =>
          unfold foldFile at h
          obtain ⟨newCls', hres, hmap⟩ := ih hs cls tags res h
          exact ⟨newCls', hres, by simpa [clozeLinesOf] using hmap⟩
      | link x =>
          unfold foldFile at h
          obtain ⟨newCls', hres, hmap⟩ := ih hs cls tags res h
          exact ⟨newCls', hres, by simpa [clozeLinesOf] using hmap⟩
      | ch x =>
          unfold foldFile at h
          obtain ⟨newCls', hres, hmap⟩ := ih hs cls tags res h
          exact ⟨newCls', hres, by simpa [clozeLinesOf] using hmap⟩

theorem dataWfB_of_clWfB (str : List Char) :
    ∀ (cls : List ClozeLinesE) (cds : List ClozeData) (base : Nat),
      cds.map (fun cd => (cd.note_id, cd.remaining_length))
        = cls.map (fun cl => (cl.noteDigits.map foldDigits, cl.rem)) →
      (∀ cl ∈ cls, ∀ ds, cl.noteDigits = some ds → digitsVal ds < u64size) →
      clWfB str base cls = true → dataWfB str base cds = true := by
  intro cls
  induction cls with
  | nil =>
      intro cds base hmap _ _
      cases cds with
      | nil => rfl
      | cons cd cds' => simp [clozeLinesOf] at hmap
  | cons cl rest ih =>
      intro cds base hmap hsmall hwf
      cases cds with
      | nil => simp at hmap
      | cons cd cds' =>
          simp only [List.map_cons, List.cons.injEq] at hmap
          obtain ⟨hhead, htail⟩ := hmap
          have hid : cd.note_id = cl.noteDigits.map foldDigits :=
            congrArg Prod.fst hhead
          have hr : cd.remaining_length = cl.rem :=
            congrArg Prod.snd hhead
          unfold clWfB at hwf
          unfold dataWfB
          simp only [Bool.and_eq_true, decide_eq_true_eq] at hwf ⊢
          obtain ⟨⟨⟨hle, hrem⟩, hdig⟩, hwtail⟩ := hwf
          refine ⟨⟨⟨by rw [hr]; exact hle, by rw [hr]; exact hrem⟩, ?_⟩,
            by
              rw [hr]
              exact ih cds' _ htail
                (fun c hc ds hds => hsmall c (List.mem_cons_of_mem cl hc) ds hds) hwtail⟩
          cases hnd : cd.note_id with
          | none => simp
          | some n =>
              rw [hnd] at hid
              cases hnds : cl.noteDigits with
              | none => rw [hnds] at hid; simp at hid
              | some ds =>
                  rw [hnds] at hid hdig
                  simp at hid
                  simp only [Bool.and_eq_true, decide_eq_true_eq] at hdig
                  obtain ⟨⟨hne, hall⟩, hinf⟩ := hdig
                  have hsuf := decChars_foldDigits_suffix ds hne hall
                    (hsmall cl (List.mem_cons_self cl rest) ds hnds)
                  simp only [decide_eq_true_eq]
                  rw [hid, hr]
                  exact hsuf.isInfix.trans hinf

/-! ## rfind: Rust's reverse substring search -/

theorem rfindAux_spec (s pat : List Char) :
    ∀ (n p : Nat), rfindAux s pat n = some p → pat.isPrefixOf (s.drop p) ∧ p ≤ n := by
  intro n
  induction n with
  | zero =>
      intro p h
      unfold rfindAux at h
      by_cases hc : pat.isPrefixOf (s.drop 0)
      · rw [if_pos hc] at h
        simp at h
        rw [← h]
        exact ⟨hc, le_rfl⟩
      · rw [if_neg hc] at h; cases h
  | succ i ih =>
      intro p h
      unfold rfindAux at h
      by_cases hc : pat.isPrefixOf (s.drop (i + 1))
      · rw [if_pos hc] at h
        simp at h
        rw [← h]
        exact ⟨hc, le_rfl⟩
      · rw [if_neg hc] at h
        obtain ⟨h1, h2⟩ := ih p h
        exact ⟨h1, by omega⟩

theorem rfindAux_isSome (s pat : List Char) :
    ∀ (n i : Nat), i ≤ n → pat.isPrefixOf (s.drop i) → (rfindAux s pat n).isSome := by
  intro n
  induction n with
  | zero =>
      intro i hi hp
      unfold rfindAux
      have hi0 : i = 0 := by omega
      subst hi0
      rw [if_pos hp]
      simp
  | succ m ih =>
      intro i hi hp
      unfold rfindAux
      by_cases hc : pat.isPrefixOf (s.drop (m + 1))
      · rw [if_pos hc]; simp
      · rw [if_neg hc]
        rcases Nat.lt_or_ge i (m + 1) with hlt | hge
        · exact ih i (by omega) hp
        · have : i = m + 1 := by omega
          subst this
          exact absurd hp hc

theorem rfindAux_ge (s pat : List Char) :
    ∀ (n p : Nat), rfindAux s pat n = some p →
      ∀ i, i ≤ n → pat.isPrefixOf (s.drop i) → i ≤ p := by
  intro n
  induction n with
  | zero => intro p h i hi _; omega
  | succ m ih =>
      intro p h i hi hp
      unfold rfindAux at h
      by_cases hc : pat.isPrefixOf (s.drop (m + 1))
      · rw [if_pos hc] at h
        simp at h
        omega
      · rw [if_neg hc] at h
        rcases Nat.lt_or_ge i (m + 1) with hlt | hge
        · exact ih p h i (by omega) hp
        · have : i = m + 1 := by omega
          subst this
          exact absurd hp hc

theorem rfindIdx_isSome (s pat : List Char) (h : pat <:+: s) : (rfindIdx s pat).isSome := by
  obtain ⟨pre, post, hps⟩ := h
  unfold rfindIdx
  refine rfindAux_isSome s pat s.length pre.length ?_ ?_
  · rw [← hps]
    simp
  · rw [← hps, List.append_assoc, List.drop_left]
    exact List.isPrefixOf_iff_prefix.mpr (List.prefix_append pat post)

theorem replace_at_occurrence (l pat : List Char) (p : Nat)
    (hp : pat.isPrefixOf (l.drop p)) :
    l.take p ++ (pat ++ l.drop (p + pat.length)) = l := by
  obtain ⟨t, ht⟩ := List.isPrefixOf_iff_prefix.mp hp
  have hdrop : l.drop (p + pat.length) = t := by
    rw [← List.drop_drop]
    rw [← ht]
    rw [List.drop_left]
  rw [hdrop, ht]
  exact List.take_append_drop p l

theorem parseFile_eq (s : List Char) :
    parseFile s = some ((manyA fileElemP (s.length + 1) s).1) := by
  have hdrain := manyA_drains fileElemP fileElemP_lt (s.length + 1) s (by omega)
  cases hm : manyA fileElemP (s.length + 1) s with
  | mk es rest =>
      cases rest with
      | nil =>
          unfold parseFile pMany
          rw [hm]
      | cons c rest' =>
          rw [hm] at hdrain
          exact absurd hdrain (fileElemP_ne_none c rest')

/-! ## Splice-step equations and shape lemmas -/

theorem spliceWrite_none_eq (str : List Char) (st : SpliceState)
    (notes' : List (KnownNote × Bool)) (call : StoreCall) (index : Nat)
    (noteId : Option Nat) :
    spliceWrite str st notes' call index noteId none
      = .ok ⟨notes', st.out ++ ((str.take index).drop st.lastRead), index,
             st.callIdx + 1, st.trace ++ [call]⟩ := by
  cases noteId <;> rfl

theorem spliceWrite_insert_eq (str : List Char) (st : SpliceState)
    (notes' : List (KnownNote × Bool)) (call : StoreCall) (index : Nat) (idw : Nat) :
    spliceWrite str st notes' call index none (some idw)
      = .ok ⟨notes',
             (st.out ++ ((str.take index).drop st.lastRead)) ++ insertedComment idw,
             index, st.callIdx + 1, st.trace ++ [call]⟩ := rfl

theorem spliceWrite_replace_eq (str : List Char) (st : SpliceState)
    (notes' : List (KnownNote × Bool)) (call : StoreCall) (index : Nat)
    (prev newId : Nat) :
    spliceWrite str st notes' call index (some prev) (some newId)
      = match rfindIdx (st.out ++ ((str.take index).drop st.lastRead)) (decChars prev) with
        | none => .panic
        | some p =>
            .ok ⟨notes',
              ((st.out ++ ((str.take index).drop st.lastRead)).take p) ++ decChars newId
                ++ ((st.out ++ ((str.take index).drop st.lastRead)).drop
                      (p + (decChars prev).length)),
              index, st.callIdx + 1, st.trace ++ [call]⟩ := rfl

/-- Gluing a verbatim copy: the chunk copied between two cursor positions
extends the prefix already written to the longer prefix. -/
theorem take_glue (l : List Char) (a b : Nat) (hab : a ≤ b) :
    l.take a ++ (l.take b).drop a = l.take b := by
  have h1 : (l.take b).take a = l.take a := by
    rw [List.take_take]
    congr 1
    omega
  rw [← h1]
  exact List.take_append_drop a (l.take b)

theorem spliceWrite_shape (str : List Char) (st : SpliceState)
    (notes' : List (KnownNote × Bool)) (call : StoreCall) (index : Nat)
    (noteId finalId : Option Nat)
    (hdig : ∀ n, noteId = some n →
        decChars n <:+: ((str.take index).drop st.lastRead)) :
    ∃ st', spliceWrite str st notes' call index noteId finalId = .ok st' ∧
      st'.notes = notes' ∧ st'.lastRead = index ∧ st'.callIdx = st.callIdx + 1 ∧
      st'.trace = st.trace ++ [call] ∧ ∃ X, st'.out = st.out ++ X := by
  cases finalId with
  | none =>
      rw [spliceWrite_none_eq]
      exact ⟨_, rfl, rfl, rfl, rfl, rfl, _, rfl⟩
  | some newId =>
      cases noteId with
      | none =>
          rw [spliceWrite_insert_eq]
          exact ⟨_, rfl, rfl, rfl, rfl, rfl,
            ((str.take index).drop st.lastRead) ++ insertedComment newId,
            by simp⟩
      | some prev =>
          have hinf : decChars prev <:+: (st.out ++ ((str.take index).drop st.lastRead)) :=
            (hdig prev rfl).trans ⟨st.out, [], by simp⟩
          rw [spliceWrite_replace_eq]
          cases hfind : rfindIdx (st.out ++ ((str.take index).drop st.lastRead))
              (decChars prev) with
          | none =>
              have hs := rfindIdx_isSome _ _ hinf
              rw [hfind] at hs
              simp at hs
          | some p =>
              have hfind' : rfindAux (st.out ++ ((str.take index).drop st.lastRead))
                  (decChars prev)
                  (st.out ++ ((str.take index).drop st.lastRead)).length = some p := hfind
              obtain ⟨pre2, post2, hocc⟩ := hdig prev rfl
              have hocc' : ((str.take index).drop st.lastRead)
                  = pre2 ++ (decChars prev ++ post2) := by
                rw [← hocc]; simp
              have hout1eq : st.out ++ ((str.take index).drop st.lastRead)
                  = (st.out ++ pre2) ++ (decChars prev ++ post2) := by
                rw [hocc']; simp
              have hi0pre : (decChars prev).isPrefixOf
                  ((st.out ++ ((str.take index).drop st.lastRead)).drop
                    (st.out ++ pre2).length) := by
                rw [hout1eq, List.drop_left]
                exact List.isPrefixOf_iff_prefix.mpr (List.prefix_append _ _)
              have hi0le : (st.out ++ pre2).length
                  ≤ (st.out ++ ((str.take index).drop st.lastRead)).length := by
                rw [hout1eq]; simp
              have hple : (st.out ++ pre2).length ≤ p :=
                rfindAux_ge _ _ _ p hfind' _ hi0le hi0pre
              have hple' : st.out.length ≤ p := by
                rw [List.length_append] at hple; omega
              have htakep : (st.out ++ ((str.take index).drop st.lastRead)).take p
                  = st.out
                    ++ ((str.take index).drop st.lastRead).take (p - st.out.length) := by
                rw [List.take_append_eq_append_take, List.take_of_length_le hple']
              refine ⟨_, rfl, rfl, rfl, rfl, rfl, ?_⟩
              refine ⟨((str.take index).drop st.lastRead).take (p - st.out.length)
                  ++ decChars newId
                  ++ ((st.out ++ ((str.take index).drop st.lastRead)).drop
                        (p + (decChars prev).length)), ?_⟩
              rw [htakep]
              simp

theorem spliceWrite_identity (str : List Char) (st : SpliceState)
    (notes' : List (KnownNote × Bool)) (call : StoreCall) (index : Nat) (prev : Nat)
    (hdig : decChars prev <:+: ((str.take index).drop st.lastRead)) :
    spliceWrite str st notes' call index (some prev) (some prev)
      = .ok ⟨notes', st.out ++ ((str.take index).drop st.lastRead), index,
             st.callIdx + 1, st.trace ++ [call]⟩ := by
  rw [spliceWrite_replace_eq]
  have hinf : decChars prev <:+: (st.out ++ ((str.take index).drop st.lastRead)) :=
    hdig.trans ⟨st.out, [], by simp⟩
  cases hfind : rfindIdx (st.out ++ ((str.take index).drop st.lastRead))
      (decChars prev) with
  | none =>
      have hs := rfindIdx_isSome _ _ hinf
      rw [hfind] at hs
      simp at hs
  | some p =>
      have hfind' : rfindAux (st.out ++ ((str.take index).drop st.lastRead))
          (decChars prev)
          (st.out ++ ((str.take index).drop st.lastRead)).length = some p := hfind
      have hpre := (rfindAux_spec _ _ _ _ hfind').1
      have hrepl := replace_at_occurrence
        (st.out ++ ((str.take index).drop st.lastRead)) (decChars prev) p hpre
      rw [← List.append_assoc] at hrepl
      exact Eq.trans rfl (congrArg
        (fun o => StepResult.ok
          (⟨notes', o, index, st.callIdx + 1, st.trace ++ [call]⟩ : SpliceState))
        hrepl)

theorem spliceStep_matched_eq (str : List Char) (oracle : Nat → Option Nat)
    (deck : Option (List Char)) (tags : List (List Char)) (st : SpliceState)
    (cd : ClozeData) (matchedId : Nat)
    (hm : (findMatch cd.note_id cd.contents st.notes).1 = some matchedId) :
    spliceStep str oracle deck tags st cd
      = spliceWrite str st (findMatch cd.note_id cd.contents st.notes).2
          (.update matchedId cd.contents tags) (str.length - cd.remaining_length)
          cd.note_id
          (match oracle st.callIdx with
           | some _ => some matchedId
           | none => none) := by
  unfold spliceStep
  rw [hm]

theorem spliceStep_unmatched_eq (str : List Char) (oracle : Nat → Option Nat)
    (d : List Char) (tags : List (List Char)) (st : SpliceState) (cd : ClozeData)
    (hm : (findMatch cd.note_id cd.contents st.notes).1 = none) :
    spliceStep str oracle (some d) tags st cd
      = spliceWrite str st (findMatch cd.note_id cd.contents st.notes).2
          (.create cd.contents tags d) (str.length - cd.remaining_length)
          cd.note_id (oracle st.callIdx) := by
  unfold spliceStep
  rw [hm]

theorem spliceStep_unmatched_nodeck_eq (str : List Char) (oracle : Nat → Option Nat)
    (tags : List (List Char)) (st : SpliceState) (cd : ClozeData)
    (hm : (findMatch cd.note_id cd.contents st.notes).1 = none) :
    spliceStep str oracle none tags st cd = .errAbort := by
  unfold spliceStep
  rw [hm]

/-- One loop iteration either aborts (no match and no deck) or succeeds,
advancing the cursor to the note's splice index, issuing exactly one store
call and extending the output buffer. -/
theorem spliceStep_cases (str : List Char) (oracle : Nat → Option Nat)
    (deck : Option (List Char)) (tags : List (List Char)) (st : SpliceState)
    (cd : ClozeData)
    (hdig : ∀ n, cd.note_id = some n →
        decChars n <:+:
          ((str.take (str.length - cd.remaining_length)).drop st.lastRead)) :
    (spliceStep str oracle deck tags st cd = .errAbort ∧ deck = none) ∨
    (∃ st' call, spliceStep str oracle deck tags st cd = .ok st' ∧
      st'.notes = (findMatch cd.note_id cd.contents st.notes).2 ∧
      st'.lastRead = str.length - cd.remaining_length ∧
      st'.callIdx = st.callIdx + 1 ∧
      st'.trace = st.trace ++ [call] ∧ ∃ X, st'.out = st.out ++ X) := by
  cases hm : (findMatch cd.note_id cd.contents st.notes).1 with
  | some matchedId =>
      right
      obtain ⟨st', hw, h1, h2, h3, h4, h5⟩ :=
        spliceWrite_shape str st (findMatch cd.note_id cd.contents st.notes).2
          (.update matchedId cd.contents tags) (str.length - cd.remaining_length)
          cd.note_id
          (match oracle st.callIdx with
           | some _ => some matchedId
           | none => none) hdig
      exact ⟨st', .update matchedId cd.contents tags,
        (spliceStep_matched_eq str oracle deck tags st cd matchedId hm).trans hw,
        h1, h2, h3, h4, h5⟩
  | none =>
      cases deck with
      | none =>
          exact Or.inl ⟨spliceStep_unmatched_nodeck_eq str oracle tags st cd hm, rfl⟩
      | some dd =>
          right
          obtain ⟨st', hw, h1, h2, h3, h4, h5⟩ :=
            spliceWrite_shape str st (findMatch cd.note_id cd.contents st.notes).2
              (.create cd.contents tags dd) (str.length - cd.remaining_length)
              cd.note_id (oracle st.callIdx) hdig
          exact ⟨st', .create cd.contents tags dd,
            (spliceStep_unmatched_eq str oracle dd tags st cd hm).trans hw,
            h1, h2, h3, h4, h5⟩

/-- When the store call fails (`oracle` answers `none` at this index), the
iteration copies the verbatim chunk byte-identically: no comment is inserted
and no id text is replaced. -/
theorem spliceStep_fail (str : List Char) (oracle : Nat → Option Nat)
    (d : List Char) (tags : List (List Char)) (st : SpliceState) (cd : ClozeData)
    (hfail : oracle st.callIdx = none) :
    ∃ call, spliceStep str oracle (some d) tags st cd
      = .ok ⟨(findMatch cd.note_id cd.contents st.notes).2,
             st.out ++ ((str.take (str.length - cd.remaining_length)).drop st.lastRead),
             str.length - cd.remaining_length, st.callIdx + 1, st.trace ++ [call]⟩ := by
  cases hm : (findMatch cd.note_id cd.contents st.notes).1 with
  | some matchedId =>
      refine ⟨.update matchedId cd.contents tags, ?_⟩
      rw [spliceStep_matched_eq str oracle (some d) tags st cd matchedId hm, hfail]
      exact spliceWrite_none_eq str st _ _ _ cd.note_id
  | none =>
      refine ⟨.create cd.contents tags d, ?_⟩
      rw [spliceStep_unmatched_eq str oracle d tags st cd hm, hfail]
      exact spliceWrite_none_eq str st _ _ _ cd.note_id

/-- When the pending note's embedded id matches the snapshot note found and
the store call succeeds, the iteration replaces the id by itself: the output
buffer is extended by the verbatim chunk only. -/
theorem spliceStep_identity (str : List Char) (oracle : Nat → Option Nat)
    (d : List Char) (tags : List (List Char)) (st : SpliceState) (cd : ClozeData)
    (n v : Nat) (hid : cd.note_id = some n)
    (hmatch : (findMatch cd.note_id cd.contents st.notes).1 = some n)
    (hv : oracle st.callIdx = some v)
    (hdig : decChars n <:+:
      ((str.take (str.length - cd.remaining_length)).drop st.lastRead)) :
    spliceStep str oracle (some d) tags st cd
      = .ok ⟨(findMatch cd.note_id cd.contents st.notes).2,
             st.out ++ ((str.take (str.length - cd.remaining_length)).drop st.lastRead),
             str.length - cd.remaining_length, st.callIdx + 1,
             st.trace ++ [.update n cd.contents tags]⟩ := by
  rw [spliceStep_matched_eq str oracle (some d) tags st cd n hmatch, hv, hid]
  exact spliceWrite_identity str st _ _ _ n hdig

/-! ## The reconcile loop: composition, success, no-panic, identity -/

theorem runSplice_append (str : List Char) (oracle : Nat → Option Nat)
    (deck : Option (List Char)) (tags : List (List Char)) :
    ∀ (l1 l2 : List ClozeData) (st : SpliceState),
      runSplice str oracle deck tags st (l1 ++ l2)
        = match runSplice str oracle deck tags st l1 with
          | .panic => .panic
          | .errAbort => .errAbort
          | .ok st1 => runSplice str oracle deck tags st1 l2 := by
  intro l1
  induction l1 with
  | nil => intro l2 st; rfl
  | cons c rest ih =>
      intro l2 st
      simp only [List.cons_append, runSplice]
      cases spliceStep str oracle deck tags st c with
      | panic => rfl
      | errAbort => rfl
      | ok st1 => exact ih l2 st1

theorem dataWfB_append (str : List Char) :
    ∀ (l1 l2 : List ClozeData) (base : Nat),
      dataWfB str base (l1 ++ l2) = true →
      dataWfB str base l1 = true ∧ dataWfB str (endBase str base l1) l2 = true := by
  intro l1
  induction l1 with
  | nil =>
      intro l2 base h
      exact ⟨rfl, h⟩
  | cons c rest ih =>
      intro l2 base h
      rw [List.cons_append] at h
      unfold dataWfB at h
      simp only [Bool.and_eq_true] at h
      obtain ⟨⟨⟨h1, h2⟩, h3⟩, htail⟩ := h
      obtain ⟨hw1, hw2⟩ := ih l2 (str.length - c.remaining_length) htail
      refine ⟨?_, hw2⟩
      unfold dataWfB
      simp only [Bool.and_eq_true]
      exact ⟨⟨⟨h1, h2⟩, h3⟩, hw1⟩

/-- With a deck present and well-formed pending data, the loop always
succeeds: the cursor lands at the final splice index, one store call is
issued per note, and the output extends the initial buffer. -/
theorem runSplice_ok (str : List Char) (oracle : Nat → Option Nat)
    (d : List Char) (tags : List (List Char)) :
    ∀ (cls : List ClozeData) (st : SpliceState),
      dataWfB str st.lastRead cls = true →
      ∃ st', runSplice str oracle (some d) tags st cls = .ok st' ∧
        st'.lastRead = endBase str st.lastRead cls ∧
        st'.callIdx = st.callIdx + cls.length ∧
        st'.trace.length = st.trace.length + cls.length ∧
        ∃ X, st'.out = st.out ++ X := by
  intro cls
  induction cls with
  | nil =>
      intro st _
      exact ⟨st, rfl, rfl, rfl, rfl, [], by simp⟩
  | cons cd rest ih =>
      intro st hwf
      unfold dataWfB at hwf
      simp only [Bool.and_eq_true, decide_eq_true_eq] at hwf
      obtain ⟨⟨⟨hle, hrem⟩, hdigM⟩, htail⟩ := hwf
      have hdig' : ∀ n, cd.note_id = some n →
          decChars n <:+:
            ((str.take (str.length - cd.remaining_length)).drop st.lastRead) := by
        intro n hn
        rw [hn] at hdigM
        simpa using hdigM
      rcases spliceStep_cases str oracle (some d) tags st cd hdig' with
        ⟨_, hdeck⟩ | ⟨st1, call, hstep, hnotes, hlast, hcall, htrace, X, hout⟩
      · simp at hdeck
      · have hwf1 : dataWfB str st1.lastRead rest = true := by
          rw [hlast]; exact htail
        obtain ⟨st2, hrun, h2last, h2call, h2trace, Y, h2out⟩ := ih st1 hwf1
        refine ⟨st2, ?_, ?_, ?_, ?_, X ++ Y, ?_⟩
        · simp only [runSplice]
          rw [hstep]
          exact hrun
        · rw [h2last, hlast]
          rfl
        · rw [h2call, hcall]
          simp only [List.length_cons]
          omega
        · rw [h2trace, htrace]
          simp only [List.length_append, List.length_cons, List.length_nil]
          omega
        · rw [h2out, hout, List.append_assoc]

/-- With well-formed pending data the loop never panics, whatever the deck
and the oracle: the reverse search of the replace branch cannot fail. -/
theorem runSplice_no_panic (str : List Char) (oracle : Nat → Option Nat)
    (deck : Option (List Char)) (tags : List (List Char)) :
    ∀ (cls : List ClozeData) (st : SpliceState),
      dataWfB str st.lastRead cls = true →
      runSplice str oracle deck tags st cls ≠ .panic := by
  intro cls
  induction cls with
  | nil =>
      intro st _ h
      simp [runSplice] at h
  | cons cd rest ih =>
      intro st hwf h
      unfold dataWfB at hwf
      simp only [Bool.and_eq_true, decide_eq_true_eq] at hwf
      obtain ⟨⟨⟨hle, hrem⟩, hdigM⟩, htail⟩ := hwf
      have hdig' : ∀ n, cd.note_id = some n →
          decChars n <:+:
            ((str.take (str.length - cd.remaining_length)).drop st.lastRead) := by
        intro n hn
        rw [hn] at hdigM
        simpa using hdigM
      rcases spliceStep_cases str oracle deck tags st cd hdig' with
        ⟨habort, _⟩ | ⟨st1, call, hstep, hnotes, hlast, hcall, htrace, X, hout⟩
      · simp [runSplice, habort] at h
      · simp only [runSplice, hstep] at h
        exact ih st1 (by rw [hlast]; exact htail) h

/-! ## Chunk decomposition of the splice output -/

theorem spliceWrite_piece (str : List Char) (st : SpliceState)
    (notes' : List (KnownNote × Bool)) (call : StoreCall) (index : Nat)
    (noteId finalId : Option Nat)
    (hdig : ∀ n, noteId = some n →
        decChars n <:+: ((str.take index).drop st.lastRead)) :
    ∃ st' piece, spliceWrite str st notes' call index noteId finalId = .ok st' ∧
      st'.lastRead = index ∧
      st'.out = st.out ++ piece ∧
      SplicePiece ((str.take index).drop st.lastRead) piece := by
  cases finalId with
  | none =>
      rw [spliceWrite_none_eq]
      exact ⟨_, ((str.take index).drop st.lastRead), rfl, rfl, rfl, Or.inl rfl⟩
  | some newId =>
      cases noteId with
      | none =>
          rw [spliceWrite_insert_eq]
          exact ⟨_, ((str.take index).drop st.lastRead) ++ insertedComment newId,
            rfl, rfl, by simp, Or.inr (Or.inl ⟨newId, rfl⟩)⟩
      | some prev =>
          have hinf : decChars prev <:+: (st.out ++ ((str.take index).drop st.lastRead)) :=
            (hdig prev rfl).trans ⟨st.out, [], by simp⟩
          rw [spliceWrite_replace_eq]
          cases hfind : rfindIdx (st.out ++ ((str.take index).drop st.lastRead))
              (decChars prev) with
          | none =>
              have hs := rfindIdx_isSome _ _ hinf
              rw [hfind] at hs
              simp at hs
          | some p =>
              have hfind' : rfindAux (st.out ++ ((str.take index).drop st.lastRead))
                  (decChars prev)
                  (st.out ++ ((str.take index).drop st.lastRead)).length = some p := hfind
              obtain ⟨pre2, post2, hocc⟩ := hdig prev rfl
              have hocc' : ((str.take index).drop st.lastRead)
                  = pre2 ++ (decChars prev ++ post2) := by
                rw [← hocc]; simp
              have hout1eq : st.out ++ ((str.take index).drop st.lastRead)
                  = (st.out ++ pre2) ++ (decChars prev ++ post2) := by
                rw [hocc']; simp
              have hi0pre : (decChars prev).isPrefixOf
                  ((st.out ++ ((str.take index).drop st.lastRead)).drop
                    (st.out ++ pre2).length) := by
                rw [hout1eq, List.drop_left]
                exact List.isPrefixOf_iff_prefix.mpr (List.prefix_append _ _)
              have hi0le : (st.out ++ pre2).length
                  ≤ (st.out ++ ((str.take index).drop st.lastRead)).length := by
                rw [hout1eq]; simp
              have hple : (st.out ++ pre2).length ≤ p :=
                rfindAux_ge _ _ _ p hfind' _ hi0le hi0pre
              have hple' : st.out.length ≤ p := by
                rw [List.length_append] at hple; omega
              have htakep : (st.out ++ ((str.take index).drop st.lastRead)).take p
                  = st.out
                    ++ ((str.take index).drop st.lastRead).take (p - st.out.length) := by
                rw [List.take_append_eq_append_take, List.take_of_length_le hple']
              have hdropp : (st.out ++ ((str.take index).drop st.lastRead)).drop
                    (p + (decChars prev).length)
                  = ((str.take index).drop st.lastRead).drop
                      ((p - st.out.length) + (decChars prev).length) := by
                rw [List.drop_append_eq_append_drop,
                  List.drop_eq_nil_of_le (by omega : st.out.length ≤ p + (decChars prev).length),
                  List.nil_append]
                congr 1
                omega
              have hdrop2 : (st.out ++ ((str.take index).drop st.lastRead)).drop p
                  = ((str.take index).drop st.lastRead).drop (p - st.out.length) := by
                rw [List.drop_append_eq_append_drop, List.drop_eq_nil_of_le hple',
                  List.nil_append]
              have hpfx : (decChars prev).isPrefixOf
                  (((str.take index).drop st.lastRead).drop (p - st.out.length)) := by
                rw [← hdrop2]
                exact (rfindAux_spec _ _ _ _ hfind').1
              refine ⟨_, ((str.take index).drop st.lastRead).take (p - st.out.length)
                  ++ decChars newId
                  ++ ((str.take index).drop st.lastRead).drop
                       ((p - st.out.length) + (decChars prev).length),
                rfl, rfl, ?_, Or.inr (Or.inr ⟨p - st.out.length, prev, newId, hpfx, rfl⟩)⟩
              rw [htakep, hdropp]
              simp

theorem spliceStep_piece (str : List Char) (oracle : Nat → Option Nat)
    (d : List Char) (tags : List (List Char)) (st : SpliceState) (cd : ClozeData)
    (hdig : ∀ n, cd.note_id = some n →
        decChars n <:+:
          ((str.take (str.length - cd.remaining_length)).drop st.lastRead)) :
    ∃ st' piece, spliceStep str oracle (some d) tags st cd = .ok st' ∧
      st'.lastRead = str.length - cd.remaining_length ∧
      st'.out = st.out ++ piece ∧
      SplicePiece ((str.take (str.length - cd.remaining_length)).drop st.lastRead)
        piece := by
  cases hm : (findMatch cd.note_id cd.contents st.notes).1 with
  | some matchedId =>
      obtain ⟨st', piece, hw, h1, h2, h3⟩ :=
        spliceWrite_piece str st (findMatch cd.note_id cd.contents st.notes).2
          (.update matchedId cd.contents tags) (str.length - cd.remaining_length)
          cd.note_id
          (match oracle st.callIdx with
           | some _ => some matchedId
           | none => none) hdig
      exact ⟨st', piece,
        (spliceStep_matched_eq str oracle (some d) tags st cd matchedId hm).trans hw,
        h1, h2, h3⟩
  | none =>
      obtain ⟨st', piece, hw, h1, h2, h3⟩ :=
        spliceWrite_piece str st (findMatch cd.note_id cd.contents st.notes).2
          (.create cd.contents tags d) (str.length - cd.remaining_length)
          cd.note_id (oracle st.callIdx) hdig
      exact ⟨st', piece,
        (spliceStep_unmatched_eq str oracle d tags st cd hm).trans hw,
        h1, h2, h3⟩

/-- The output of the whole loop is the concatenation of one piece per note,
each piece its verbatim chunk up to the per-note edit (`SplicePiece`). -/
theorem runSplice_pieces (str : List Char) (oracle : Nat → Option Nat)
    (d : List Char) (tags : List (List Char)) :
    ∀ (cls : List ClozeData) (st : SpliceState),
      dataWfB str st.lastRead cls = true →
      ∃ st' pieces, runSplice str oracle (some d) tags st cls = .ok st' ∧
        st'.lastRead = endBase str st.lastRead cls ∧
        st'.out = st.out ++ pieces.foldr (· ++ ·) [] ∧
        List.Forall₂ SplicePiece (chunksOf str st.lastRead cls) pieces := by
  intro cls
  induction cls with
  | nil =>
      intro st _
      exact ⟨st, [], rfl, rfl, by simp, List.Forall₂.nil⟩
  | cons cd rest ih =>
      intro st hwf
      unfold dataWfB at hwf
      simp only [Bool.and_eq_true, decide_eq_true_eq] at hwf
      obtain ⟨⟨⟨hle, hrem⟩, hdigM⟩, htail⟩ := hwf
      have hdig' : ∀ n, cd.note_id = some n →
          decChars n <:+:
            ((str.take (str.length - cd.remaining_length)).drop st.lastRead) := by
        intro n hn
        rw [hn] at hdigM
        simpa using hdigM
      obtain ⟨st1, piece, hstep, hlast, hout, hsp⟩ :=
        spliceStep_piece str oracle d tags st cd hdig'
      have hwf1 : dataWfB str st1.lastRead rest = true := by
        rw [hlast]; exact htail
      obtain ⟨st2, pieces, hrun, h2last, h2out, h2forall⟩ := ih st1 hwf1
      refine ⟨st2, piece :: pieces, ?_, ?_, ?_, ?_⟩
      · simp only [runSplice]
        rw [hstep]
        exact hrun
      · rw [h2last, hlast]
        rfl
      · rw [h2out, hout]
        simp [List.foldr_cons]
      · show List.Forall₂ SplicePiece
          (((str.take (str.length - cd.remaining_length)).drop st.lastRead)
            :: chunksOf str (str.length - cd.remaining_length) rest) (piece :: pieces)
        refine List.Forall₂.cons hsp ?_
        rw [← hlast]
        exact h2forall

/-! ## Snapshot-key preservation of the reconciler -/

theorem findMatch_keys (noteId : Option Nat) (contents : List Char) :
    ∀ notes : List (KnownNote × Bool),
      (findMatch noteId contents notes).2.map Prod.fst = notes.map Prod.fst := by
  intro notes
  induction notes with
  | nil => rfl
  | cons p rest ih =>
      obtain ⟨n, seen⟩ := p
      unfold findMatch
      by_cases hc : noteId = some n.id ∨ n.text = contents
      · rw [if_pos hc]
        simp
      · rw [if_neg hc]
        show ((n, seen) :: (findMatch noteId contents rest).2).map Prod.fst = _
        simp only [List.map_cons]
        rw [ih]

theorem findMatch_fst_congr (noteId : Option Nat) (contents : List Char) :
    ∀ (notes1 notes2 : List (KnownNote × Bool)),
      notes1.map Prod.fst = notes2.map Prod.fst →
      (findMatch noteId contents notes1).1 = (findMatch noteId contents notes2).1 := by
  intro notes1
  induction notes1 with
  | nil =>
      intro notes2 h
      cases notes2 with
      | nil => rfl
      | cons q r2 => simp at h
  | cons p rest ih =>
      intro notes2 h
      cases notes2 with
      | nil => simp at h
      | cons q rest2 =>
          obtain ⟨n1, s1⟩ := p
          obtain ⟨n2, s2⟩ := q
          simp only [List.map_cons, List.cons.injEq] at h
          obtain ⟨hn, hr⟩ := h
          subst hn
          unfold findMatch
          by_cases hc : noteId = some n1.id ∨ n1.text = contents
          · rw [if_pos hc, if_pos hc]
          · rw [if_neg hc, if_neg hc]
            show (findMatch noteId contents rest).1 = (findMatch noteId contents rest2).1
            exact ih rest2 hr

/-- Identity re-run of the loop: if the output buffer so far is the verbatim
prefix of the file and every pending note's embedded id matches the
reconciler's result against the current snapshot, then — whatever the store
responses — the loop succeeds with output still a verbatim prefix, one call
per note, all new calls updates, and the snapshot's notes preserved (only
seen flags change). -/
theorem runSplice_identity (str : List Char) (oracle : Nat → Option Nat)
    (d : List Char) (tags : List (List Char)) :
    ∀ (cls : List ClozeData) (st : SpliceState),
      dataWfB str st.lastRead cls = true →
      st.out = str.take st.lastRead →
      (∀ cd ∈ cls, ∃ n, cd.note_id = some n ∧
        (findMatch cd.note_id cd.contents st.notes).1 = some n) →
      ∃ st', runSplice str oracle (some d) tags st cls = .ok st' ∧
        st'.out = str.take st'.lastRead ∧
        st'.trace.length = st.trace.length + cls.length ∧
        (∀ call ∈ st'.trace, call ∈ st.trace ∨ ∃ i c t, call = StoreCall.update i c t) ∧
        st'.notes.map Prod.fst = st.notes.map Prod.fst := by
  intro cls
  induction cls with
  | nil =>
      intro st _ hout _
      exact ⟨st, rfl, hout, by simp, fun call hc => Or.inl hc, rfl⟩
  | cons cd rest ih =>
      intro st hwf hout hall
      unfold dataWfB at hwf
      simp only [Bool.and_eq_true, decide_eq_true_eq] at hwf
      obtain ⟨⟨⟨hle, hrem⟩, hdigM⟩, htail⟩ := hwf
      obtain ⟨n, hid, hmatch⟩ := hall cd (List.mem_cons_self cd rest)
      have hdig : decChars n <:+:
          ((str.take (str.length - cd.remaining_length)).drop st.lastRead) := by
        rw [hid] at hdigM
        simpa using hdigM
      have hstep : spliceStep str oracle (some d) tags st cd
          = .ok ⟨(findMatch cd.note_id cd.contents st.notes).2,
                 st.out
                   ++ ((str.take (str.length - cd.remaining_length)).drop st.lastRead),
                 str.length - cd.remaining_length, st.callIdx + 1,
                 st.trace ++ [.update n cd.contents tags]⟩ := by
        cases hv : oracle st.callIdx with
        | none =>
            rw [spliceStep_matched_eq str oracle (some d) tags st cd n hmatch, hv]
            exact spliceWrite_none_eq str st _ _ _ cd.note_id
        | some v =>
            exact spliceStep_identity str oracle d tags st cd n v hid hmatch hv hdig
      have hout1 : st.out ++ ((str.take (str.length - cd.remaining_length)).drop st.lastRead)
          = str.take (str.length - cd.remaining_length) := by
        rw [hout]
        exact take_glue str st.lastRead (str.length - cd.remaining_length) hle
      have hall1 : ∀ c ∈ rest, ∃ m, c.note_id = some m ∧
          (findMatch c.note_id c.contents
            ((findMatch cd.note_id cd.contents st.notes).2)).1 = some m := by
        intro c hc
        obtain ⟨m, hcid, hcm⟩ := hall c (List.mem_cons_of_mem cd hc)
        refine ⟨m, hcid, ?_⟩
        rw [findMatch_fst_congr c.note_id c.contents
          ((findMatch cd.note_id cd.contents st.notes).2) st.notes
          (findMatch_keys cd.note_id cd.contents st.notes)]
        exact hcm
      obtain ⟨st2, hrun, hout2, hlen2, hcalls2, hkeys2⟩ :=
        ih ⟨(findMatch cd.note_id cd.contents st.notes).2,
            st.out ++ ((str.take (str.length - cd.remaining_length)).drop st.lastRead),
            str.length - cd.remaining_length, st.callIdx + 1,
            st.trace ++ [.update n cd.contents tags]⟩ htail hout1 hall1
      refine ⟨st2, ?_, hout2, ?_, ?_, ?_⟩
      · simp only [runSplice]
        rw [hstep]
        exact hrun
      · have h1 : st2.trace.length
            = (st.trace ++ [StoreCall.update n cd.contents tags]).length + rest.length :=
          hlen2
        simp only [List.length_append, List.length_cons, List.length_nil] at h1
        simp only [List.length_cons]
        omega
      · intro call hc
        rcases hcalls2 call hc with hmem | hupd
        · have hmem' : call ∈ st.trace ++ [StoreCall.update n cd.contents tags] := hmem
          rcases List.mem_append.mp hmem' with h | h
          · exact Or.inl h
          · right
            refine ⟨n, cd.contents, tags, ?_⟩
            simpa using h
        · exact Or.inr hupd
      · have h2 : st2.notes.map Prod.fst
            = ((findMatch cd.note_id cd.contents st.notes).2).map Prod.fst := hkeys2
        rw [h2, findMatch_keys]

/-- C2 counterexample: for the input file `"A\n==B==\n"`, empty snapshot and
a store whose create returns id 42, `handle_md` produces
`"A\n==B==\n<!--NoteID:42-->\n"` — the original trailing newline remains
after the inserted comment — not the claimed `"A\n==B==\n<!--NoteID:42-->"`.
(The splice point recorded by `RemainingLength` lies right after `==B==`,
before the file's final newline, and the insertion carries its own leading
newline.) -/
theorem c2_counterexample :
    handle_md_model ⟨fun _ => some false, fun _ => none⟩ (fun _ => none)
      (fun _ => some 42) [] (some ['D']) ['p'] "A\n==B==\n".toList
      = .ok "A\n==B==\n<!--NoteID:42-->\n".toList
          [.create (clozeOpen 1 ++ ['B'] ++ [rbraceChar, rbraceChar]
            ++ ['<', 'b', 'r', '>', 'p']) [] ['D']] [] ∧
    ("A\n==B==\n<!--NoteID:42-->\n".toList : List Char)
      ≠ "A\n==B==\n<!--NoteID:42-->".toList := by
  exact ⟨by decide, by decide⟩

/-- C2 amended: the single-pass cursor splice preserves byte-exactly
everything that is not an inserted identifier comment or a replaced
embedded id: the output is the concatenation, one piece per note, of the
verbatim chunks of the input up to each note's recorded splice point — each
chunk either unchanged, or with the fresh comment appended at the splice
point, or with the embedded prior id's decimal digits replaced in place —
followed by the verbatim remainder of the input (in particular the
original trailing newline survives AFTER an inserted comment, as on
`"A\n==B==\n"` with created id 42, where the output is
`"A\n==B==\n<!--NoteID:42-->\n"`). -/
theorem c2_cursor_splice_preserves (o : MathOracles) (img : List Char → Option Picture)
    (oracle : Nat → Option Nat) (notes0 : List (KnownNote × Bool))
    (d pathStr input : List Char) (es : List FileElemE) (hs : List (List Char))
    (clozes : List ClozeData) (tags : List (List Char))
    (hparse : parseFile input = some es)
    (hfold : foldFile o img pathStr es [] [] [] = some (hs, clozes, tags))
    (hsmall : ∀ cl ∈ clozeLinesOf es, ∀ ds, cl.noteDigits = some ds →
      digitsVal ds < u64size) :
    ∃ trace notes' pieces,
      handle_md_model o img oracle notes0 (some d) pathStr input
        = .ok ((pieces.foldr (· ++ ·) []) ++ input.drop (endBase input 0 clozes))
            trace notes' ∧
      List.Forall₂ SplicePiece (chunksOf input 0 clozes) pieces := by
  have hes : es = (manyA fileElemP (input.length + 1) input).1 := by
    have h2 := parseFile_eq input
    rw [hparse] at h2
    exact Option.some.inj h2
  have hclwf := manyA_clWf input (input.length + 1) input List.suffix_rfl
  rw [Nat.sub_self] at hclwf
  obtain ⟨newCls, hres, hmap⟩ :=
    foldFile_newClozes o img pathStr es [] [] [] (hs, clozes, tags) hfold
  have hnew : clozes = newCls := by simpa using hres
  have hdwf : dataWfB input 0 clozes = true := by
    rw [hnew]
    refine dataWfB_of_clWfB input (clozeLinesOf es) newCls 0 hmap hsmall ?_
    rw [hes]
    exact hclwf
  obtain ⟨st', pieces, hrun, hlast, hout, hforall⟩ :=
    runSplice_pieces input oracle d tags clozes ⟨notes0, [], 0, 0, []⟩ hdwf
  refine ⟨st'.trace, st'.notes, pieces, ?_, hforall⟩
  unfold handle_md_model
  rw [hparse]
  simp only []
  rw [hfold]
  simp only []
  rw [hrun]
  simp only []
  have h1 : st'.out = pieces.foldr (· ++ ·) [] := by
    simpa using hout
  rw [h1, hlast]

/-- C2 witness: the preservation theorem applied to the concrete scenario:
input `"A\n==B==\n"`, empty snapshot, create returning 42; the single
chunk is `"A\n==B=="` (splice index 7) and the verbatim remainder is the
original trailing newline. -/
theorem c2_cursor_splice_preserves_witness :
    ∃ trace notes' pieces,
      handle_md_model ⟨fun _ => some false, fun _ => none⟩ (fun _ => none)
        (fun _ => some 42) [] (some ['D']) ['p'] c2Input
        = .ok ((pieces.foldr (· ++ ·) [])
            ++ c2Input.drop (endBase c2Input 0 [⟨c3Contents, none, [], 1⟩]))
            trace notes' ∧
      List.Forall₂ SplicePiece
        (chunksOf c2Input 0 [⟨c3Contents, none, [], 1⟩]) pieces :=
  c2_cursor_splice_preserves ⟨fun _ => some false, fun _ => none⟩ (fun _ => none)
    (fun _ => some 42) [] ['D'] ['p'] c2Input
    [.ch 'A', .ch '\n', .clozeLines ⟨[], [.ch 'B'], [], none, 1⟩, .ch '\n']
    [] [⟨c3Contents, none, [], 1⟩] []
    (by decide) (by decide)
    (by
      intro cl hcl ds hds
      simp only [clozeLinesOf, List.mem_singleton] at hcl
      subst hcl
      simp at hds)

/-- C3 counterexample: re-running the pipeline on output carrying a correct
13-digit identifier, with the matching snapshot, leaves the file
byte-identical but does NOT produce zero store mutations: the matched note
issues an UpdateNote call (one state-changing store call per note). -/
theorem c3_counterexample :
    handle_md_model ⟨fun _ => some false, fun _ => none⟩ (fun _ => none)
      (fun _ => some 0) [(⟨1234567890123, c3Contents⟩, false)] (some ['D']) ['p'] c3Input
      = .ok c3Input [.update 1234567890123 c3Contents []]
          [(⟨1234567890123, c3Contents⟩, true)] ∧
    ([StoreCall.update 1234567890123 c3Contents []] : List StoreCall) ≠ [] := by
  exact ⟨by decide, by decide⟩

/-- C7 counterexample: the identifier-comment parser accepts a ten-digit
comment (so it does not recognise exactly the 13-digit width), and the
comment `handle_md` inserts for id 42 is `"\n<!--NoteID:42-->"` (17 bytes,
digits unpadded) — not a newline followed by a 29-byte fixed form; even the
canonical 13-digit comment is 27 bytes, not 29. -/
theorem c7_counterexample :
    (noteIdP ('\n' :: (noteIdStart ++ ("0123456789".toList ++ noteIdEnd)))).isSome ∧
    ("0123456789".toList.length = 10) ∧
    ((insertedComment 42).length = 17) ∧
    (noteIdStart.length + 13 + noteIdEnd.length = 27) := by
  exact ⟨by decide, by decide, by decide, by decide⟩

/-- C7 amended: the parser accepts a newline, `<!--NoteID:`, AT LEAST TEN
ASCII digits, `-->` and an optional newline (and rejects nine digits); every
comment `handle_md` inserts is a newline followed by `<!--NoteID:` + the
id's decimal digits + `-->`, whose length is `15 + digits` — the canonical
13-digit timestamp form is 27 bytes (28 with its preceding newline). -/
theorem c7_note_id_comment_form (ds : List Char) (h10 : 10 ≤ ds.length)
    (hds : ∀ c ∈ ds, '0' ≤ c ∧ c ≤ '9') :
    noteIdP ('\n' :: (noteIdStart ++ (ds ++ noteIdEnd))) = some (ds, []) ∧
    (∀ id : Nat, (insertedComment id).length = 15 + (decChars id).length) ∧
    noteIdP ('\n' :: (noteIdStart ++ ("123456789".toList ++ noteIdEnd))) = none := by
  refine ⟨noteIdP_accepts ds h10 hds, ?_, by decide⟩
  intro id
  simp [insertedComment, noteIdStart, noteIdEnd]
  omega

/-- C7 witness: the amended theorem applied to the concrete ten-digit run. -/
theorem c7_note_id_comment_form_witness :
    noteIdP ('\n' :: (noteIdStart ++ ("0123456789".toList ++ noteIdEnd)))
      = some ("0123456789".toList, []) :=
  (c7_note_id_comment_form "0123456789".toList (by decide) (by decide)).1

/-! ## Claim theorems: C10, C1, C5, C4 -/

/-- C10: `update_cloze_note` returns `Ok` both when the UpdateNote response
carries a result and no error and when it carries neither (the
`ErrorNorResult` case is swallowed); the DeleteNotes call in
`handle_unseen_notes` likewise swallows `ErrorNorResult`; every other
operation surfaces the both-absent response as `RequestError.errorNorResult`. -/
theorem c10_error_nor_result_swallowed :
    update_cloze_note [] ⟨none, none⟩ = .ok () ∧
    update_cloze_note [] ⟨some (), none⟩ = .ok () ∧
    delete_notes_result ⟨none, none⟩ = .ok () ∧
    add_cloze_note_result ⟨none, none⟩ = .error .errorNorResult ∧
    ensure_deck_exists_result ⟨none, none⟩ = .error .errorNorResult ∧
    store_media_result ⟨none, none⟩ = .error .errorNorResult ∧
    (∀ (α : Type), classifyResponse (α := α) ⟨none, none⟩ = .error .errorNorResult) :=
  ⟨rfl, rfl, rfl, rfl, rfl, rfl, fun _ => rfl⟩

/-- C1 counterexample: with snapshot scan order `[Y, X]` where
`Y = (id 2, Text "T")` content-matches and `X = (id 1, Text "U")` id-matches
the pending note `(priorId = 1, contents "T")`, the reconciler's `find`
returns Y's id 2 (not X's id 1) and marks Y (not X) seen — so the claim's
"X is matched regardless of the positions of X and Y in scan order" is false. -/
theorem c1_counterexample :
    (findMatch (some 1) ['T'] [(⟨2, ['T']⟩, false), (⟨1, ['U']⟩, false)]).1 = some 2 ∧
    (some 2 ≠ some 1) ∧
    (findMatch (some 1) ['T'] [(⟨2, ['T']⟩, false), (⟨1, ['U']⟩, false)]).2
      = [(⟨2, ['T']⟩, true), (⟨1, ['U']⟩, false)] := by
  refine ⟨by decide, by decide, by decide⟩

/-- C1 amended: the reconciler matches the first known note in snapshot scan
order whose id equals the embedded prior id or whose Text equals the rendered
contents. In particular, if no note before X id- or content-matches and X's
id equals the embedded prior id, then X is matched: the note is updated under
X's id and X is marked seen, regardless of any content-matching note Y later
in the scan order. -/
theorem c1_id_match_when_first (noteId : Option Nat) (contents : List Char)
    (pre post : List (KnownNote × Bool)) (X : KnownNote) (sX : Bool)
    (hpre : ∀ p ∈ pre, noteId ≠ some p.1.id ∧ p.1.text ≠ contents)
    (hX : noteId = some X.id) :
    findMatch noteId contents (pre ++ (X, sX) :: post)
      = (some X.id, pre ++ (X, true) :: post) := by
  induction pre with
  | nil =>
      simp only [List.nil_append, findMatch]
      rw [if_pos (Or.inl hX)]
  | cons p pre' ih =>
      have hp := hpre p (List.mem_cons_self p pre')
      have ih' := ih (fun q hq => hpre q (List.mem_cons_of_mem p hq))
      simp only [List.cons_append, findMatch]
      rw [if_neg (by
        rintro (h | h)
        · exact hp.1 h
        · exact hp.2 h)]
      simp [ih']

/-- C1 witness: the amended theorem applied to a concrete snapshot
`[Y nonmatching, X]` with embedded id 1. -/
theorem c1_id_match_when_first_witness :
    findMatch (some 1) ['T'] ([(⟨2, ['U']⟩, false)] ++ (⟨1, ['V']⟩, false) :: [])
      = (some 1, [(⟨2, ['U']⟩, false)] ++ (⟨1, ['V']⟩, true) :: []) :=
  c1_id_match_when_first (some 1) ['T'] [(⟨2, ['U']⟩, false)] [] ⟨1, ['V']⟩ false
    (by decide) rfl

/-- C5: evaluating `handle_heading` on `# A`, `### B`, `## C` from the empty
stack. The code's `Greater` branch pushes `level - len` empty entries and
then pushes the contents, leaving the stack one longer than the heading
level, so the run ends with `["", "C"]` (breadcrumb `" > C"`), not the
`["A", "", "C"]` (breadcrumb `" > A > C"`) that the spec's contract
(pad only up to `level-1`) requires; already after `# A` the stack is
`["", "A"]` of length 2, violating "final stack length equals the heading
level". -/
theorem c5_heading_stack_eval :
    handle_heading 2 ['C'] (handle_heading 3 ['B'] (handle_heading 1 ['A'] []))
      = [[], ['C']] ∧
    handle_heading 1 ['A'] [] = [[], ['A']] ∧
    ([[], ['C']] : List (List Char)) ≠ [['A'], [], ['C']] ∧
    breadcrumb [[], ['C']] = [' ', '>', ' ', 'C'] := by
  refine ⟨by decide, by decide, by decide, by decide⟩

/-- C4 counterexample: through the LaTeX fallback path (`isTypst` answers
`false`), inner text `a}b` converts to `\(a} b\)` — the code replaces every
`}` by `} `, so a `}` not followed by another `}` is altered, contradicting
"nothing else altered"; the spec-described transform (only `}}` ↦ `} }`)
would leave `\(a}b\)` unchanged. -/
theorem c4_counterexample :
    convert_math ⟨fun _ => some false, fun _ => none⟩ (MathE.minline ['a', rbraceChar, 'b'])
      = some ['\\', '(', 'a', rbraceChar, ' ', 'b', '\\', ')'] ∧
    specBracePost ['\\', '(', 'a', rbraceChar, 'b', '\\', ')']
      = ['\\', '(', 'a', rbraceChar, 'b', '\\', ')'] ∧
    (['\\', '(', 'a', rbraceChar, ' ', 'b', '\\', ')'] : List Char)
      ≠ ['\\', '(', 'a', rbraceChar, 'b', '\\', ')'] := by
  refine ⟨by decide, by decide, by decide⟩

/-- C4 amended: the string returned by `convert_math` equals the chosen
conversion result (typst-to-latex output, or the raw text wrapped in LaTeX
delimiters) with EVERY closing brace `}` replaced by `} ` (a space inserted
after each one, whether or not another `}` follows); consequently the
returned string never contains two adjacent `}`. -/
theorem c4_brace_postprocess (o : MathOracles) (m : MathE) :
    convert_math o m
      = (chosenConversion o m).map
          (fun s => rustReplace s [rbraceChar] [rbraceChar, ' ']) ∧
    (∀ r, convert_math o m = some r → hasTwoBraces r = false) := by
  constructor
  · unfold convert_math chosenConversion
    cases h : o.isTypst (typstStyle m) with
    | none => rfl
    | some b =>
        cases b with
        | true =>
            cases h2 : o.typstToLatex (typstStyle m) with
            | none => rfl
            | some r => rfl
        | false => rfl
  · intro r hr
    unfold convert_math at hr
    cases h : o.isTypst (typstStyle m) with
    | none => rw [h] at hr; exact absurd hr (by simp)
    | some b =>
        rw [h] at hr
        cases b with
        | true =>
            cases h2 : o.typstToLatex (typstStyle m) with
            | none => rw [h2] at hr; exact absurd hr (by simp)
            | some s =>
                rw [h2] at hr
                have := Option.some.inj hr
                rw [← this]
                exact rustReplace_brace_no_two _
        | false =>
            have := Option.some.inj hr
            rw [← this]
            exact rustReplace_brace_no_two _

/-- C4 witness: the amended theorem applied at a concrete oracle and input,
with its inner hypothesis discharged on the concrete conversion result. -/
theorem c4_brace_postprocess_witness :
    hasTwoBraces ['\\', '(', 'a', rbraceChar, ' ', rbraceChar, ' ', '\\', ')'] = false :=
  (c4_brace_postprocess ⟨fun _ => some false, fun _ => none⟩
    (MathE.minline ['a', rbraceChar, rbraceChar])).2 _ (by decide)

/-- C9: the "Previous ID should be present" panic IS reachable. The parser
accepts identifier comments of any length from ten digits up, but the id
fold runs in `u64` and wraps: the 21-digit run of ones (value
111111111111111111111, above `u64::MAX`) folds to 430646668853801415, whose
decimal text occurs nowhere in the copied chunk, so when the store call
succeeds the reverse search fails and `handle_md` panics (a debug build
aborts on the overflowing fold step even earlier). -/
theorem c9_wrapped_id_reaches_panic :
    (noteIdP ('\n' :: (noteIdStart ++ (List.replicate 21 '1' ++ noteIdEnd)))).isSome ∧
    u64size ≤ digitsVal (List.replicate 21 '1') ∧
    foldDigits (List.replicate 21 '1') = 430646668853801415 ∧
    handle_md_model ⟨fun _ => some false, fun _ => none⟩ (fun _ => none)
      (fun _ => some 42) [] (some ['D']) ['p'] c9Input = PipeResult.panic := by
  exact ⟨by decide, by decide, by decide, by decide⟩

/-- C8: when the store call for one pending note fails (the oracle answers
`none` at that note's call index), no file mutation happens at that note's
position — the verbatim chunk for the note (including any existing
identifier comment) is copied byte-identically, with nothing inserted and
nothing replaced — while the remaining notes are still processed: the loop
succeeds and issues one store call per note of the whole file. -/
theorem c8_store_failure_copies_verbatim (str : List Char) (oracle : Nat → Option Nat)
    (d : List Char) (tags : List (List Char)) (notes0 : List (KnownNote × Bool))
    (pre : List ClozeData) (cd : ClozeData) (post : List ClozeData)
    (hwf : dataWfB str 0 (pre ++ cd :: post) = true)
    (hfail : oracle pre.length = none) :
    ∃ stMid stFin B,
      runSplice str oracle (some d) tags ⟨notes0, [], 0, 0, []⟩ pre = .ok stMid ∧
      runSplice str oracle (some d) tags ⟨notes0, [], 0, 0, []⟩ (pre ++ cd :: post)
        = .ok stFin ∧
      stFin.out = stMid.out
        ++ ((str.take (str.length - cd.remaining_length)).drop stMid.lastRead) ++ B ∧
      stFin.trace.length = pre.length + 1 + post.length := by
  obtain ⟨hwfPre, hwfTail⟩ := dataWfB_append str pre (cd :: post) 0 hwf
  obtain ⟨stMid, hrunPre, hmidLast, hmidCall, hmidTrace, X0, hmidOut⟩ :=
    runSplice_ok str oracle d tags pre ⟨notes0, [], 0, 0, []⟩ hwfPre
  have hwfTail' : dataWfB str stMid.lastRead (cd :: post) = true := by
    rw [hmidLast]; exact hwfTail
  unfold dataWfB at hwfTail'
  simp only [Bool.and_eq_true, decide_eq_true_eq] at hwfTail'
  obtain ⟨⟨⟨hle, hrem⟩, hdigM⟩, hpost⟩ := hwfTail'
  have hfail' : oracle stMid.callIdx = none := by
    rw [hmidCall]
    show oracle (0 + pre.length) = none
    rw [Nat.zero_add]
    exact hfail
  obtain ⟨call, hstep⟩ := spliceStep_fail str oracle d tags stMid cd hfail'
  obtain ⟨stFin, hrunPost, hfinLast, hfinCall, hfinTrace, Y, hfinOut⟩ :=
    runSplice_ok str oracle d tags post
      ⟨(findMatch cd.note_id cd.contents stMid.notes).2,
       stMid.out ++ ((str.take (str.length - cd.remaining_length)).drop stMid.lastRead),
       str.length - cd.remaining_length, stMid.callIdx + 1, stMid.trace ++ [call]⟩ hpost
  refine ⟨stMid, stFin, Y, hrunPre, ?_, hfinOut, ?_⟩
  · rw [runSplice_append str oracle (some d) tags pre (cd :: post) ⟨notes0, [], 0, 0, []⟩,
      hrunPre]
    simp only []
    simp only [runSplice]
    rw [hstep]
    exact hrunPost
  · have h1 : stFin.trace.length = (stMid.trace ++ [call]).length + post.length :=
      hfinTrace
    have h2 : stMid.trace.length = ([] : List StoreCall).length + pre.length := hmidTrace
    simp only [List.length_append, List.length_cons, List.length_nil] at h1 h2
    omega

/-- C8 witness: the theorem applied to the one-note file `"a"` whose only
pending note is unmatched and whose create call fails: the loop succeeds,
the chunk is copied verbatim and exactly one store call is traced. -/
theorem c8_store_failure_copies_verbatim_witness :
    ∃ stMid stFin B,
      runSplice ['a'] (fun _ => none) (some ['D']) [] ⟨[], [], 0, 0, []⟩ [] = .ok stMid ∧
      runSplice ['a'] (fun _ => none) (some ['D']) [] ⟨[], [], 0, 0, []⟩
        ([] ++ (⟨['X'], none, [], 0⟩ : ClozeData) :: []) = .ok stFin ∧
      stFin.out = stMid.out
        ++ ((List.take (['a'].length
              - (⟨['X'], none, [], 0⟩ : ClozeData).remaining_length) ['a']).drop
                stMid.lastRead) ++ B ∧
      stFin.trace.length
        = ([] : List ClozeData).length + 1 + ([] : List ClozeData).length :=
  c8_store_failure_copies_verbatim ['a'] (fun _ => none) ['D'] [] [] []
    ⟨['X'], none, [], 0⟩ [] (by decide) rfl

/-- C3 amended: re-running the pipeline on a file whose every pending note
carries an embedded id that the reconciler resolves to (every note matches,
so no creates; genuine identifier comments denote `u64` note ids) yields a
byte-identical file — zero file diff, whatever the store responses — but
NOT zero store mutations: exactly one UpdateNote call is issued per note. -/
theorem c3_second_run_updates_only (o : MathOracles) (img : List Char → Option Picture)
    (oracle : Nat → Option Nat) (notes0 : List (KnownNote × Bool))
    (d pathStr input : List Char) (es : List FileElemE) (hs : List (List Char))
    (clozes : List ClozeData) (tags : List (List Char))
    (hparse : parseFile input = some es)
    (hfold : foldFile o img pathStr es [] [] [] = some (hs, clozes, tags))
    (hmatch : ∀ cd ∈ clozes, ∃ n, cd.note_id = some n ∧
      (findMatch cd.note_id cd.contents notes0).1 = some n)
    (hsmall : ∀ cl ∈ clozeLinesOf es, ∀ ds, cl.noteDigits = some ds →
      digitsVal ds < u64size) :
    ∃ trace notes', handle_md_model o img oracle notes0 (some d) pathStr input
        = .ok input trace notes' ∧
      trace.length = clozes.length ∧
      ∀ call ∈ trace, ∃ i c t, call = StoreCall.update i c t := by
  have hes : es = (manyA fileElemP (input.length + 1) input).1 := by
    have h2 := parseFile_eq input
    rw [hparse] at h2
    exact Option.some.inj h2
  have hclwf := manyA_clWf input (input.length + 1) input List.suffix_rfl
  rw [Nat.sub_self] at hclwf
  obtain ⟨newCls, hres, hmap⟩ :=
    foldFile_newClozes o img pathStr es [] [] [] (hs, clozes, tags) hfold
  have hnew : clozes = newCls := by simpa using hres
  have hdwf : dataWfB input 0 clozes = true := by
    rw [hnew]
    refine dataWfB_of_clWfB input (clozeLinesOf es) newCls 0 hmap hsmall ?_
    rw [hes]
    exact hclwf
  obtain ⟨st', hrun, hout, hlen, hcalls, hkeys⟩ :=
    runSplice_identity input oracle d tags clozes ⟨notes0, [], 0, 0, []⟩
      hdwf rfl hmatch
  refine ⟨st'.trace, st'.notes, ?_, ?_, ?_⟩
  · unfold handle_md_model
    rw [hparse]
    simp only []
    rw [hfold]
    simp only []
    rw [hrun]
    simp only []
    have houtfull : st'.out ++ input.drop st'.lastRead = input := by
      rw [hout]
      exact List.take_append_drop st'.lastRead input
    rw [houtfull]
  · have h1 : st'.trace.length = ([] : List StoreCall).length + clozes.length := hlen
    simpa using h1
  · intro call hc
    rcases hcalls call hc with hmem | hupd
    · exact absurd hmem (List.not_mem_nil call)
    · exact hupd

/-- C3 witness: the amended theorem applied to the concrete second-run file
`c3Input` (one note, embedded id 1234567890123, matching snapshot): the
output is byte-identical and the single traced call is an update. -/
theorem c3_second_run_updates_only_witness :
    ∃ trace notes',
      handle_md_model ⟨fun _ => some false, fun _ => none⟩ (fun _ => none)
        (fun _ => some 0) [(⟨1234567890123, c3Contents⟩, false)] (some ['D']) ['p'] c3Input
        = .ok c3Input trace notes' ∧
      trace.length
        = ([⟨c3Contents, some 1234567890123, [], 0⟩] : List ClozeData).length ∧
      ∀ call ∈ trace, ∃ i c t, call = StoreCall.update i c t :=
  c3_second_run_updates_only ⟨fun _ => some false, fun _ => none⟩ (fun _ => none)
    (fun _ => some 0) [(⟨1234567890123, c3Contents⟩, false)] ['D'] ['p'] c3Input
    [.ch 'A', .ch '\n',
     .clozeLines ⟨[], [.ch 'B'], [],
       some ['1', '2', '3', '4', '5', '6', '7', '8', '9', '0', '1', '2', '3'], 0⟩]
    [] [⟨c3Contents, some 1234567890123, [], 0⟩] []
    (by decide) (by decide)
    (by
      intro cd hcd
      simp only [List.mem_singleton] at hcd
      subst hcd
      exact ⟨1234567890123, rfl, by decide⟩)
    (by
      intro cl hcl ds hds
      simp only [clozeLinesOf, List.mem_singleton] at hcl
      subst hcl
      have hd := Option.some.inj hds
      rw [← hd]
      decide)

end Anksidian
